import Mathlib

/-!
# gross: a verification development

A shallow embedding of parts of the `gross` greylisting daemon:

* `reverse_inet_addr` and `dnsblc`   (trunk/src/check_dnsbl.c)
* `spfc`                             (trunk/src/check_spf.c)
* `thread_pool`, `submit_job`, `edict_get`, `edict_unlink` (src/thread_pool.c)
* the `filter_bits` setting of `configure_grossd` (tags/gross-0.6.0/src/gross.c)

C strings are lists of byte values (the bytes before the terminating NUL),
C `int`s are `Int`, `unsigned int` is `Nat` reduced modulo `2 ^ 32` where a
shift can overflow.  A function that can abort on an `assert` returns an
`Option`, with `none` for the abort.  What the environment decides (the clock,
the resolver, the SPF library, the threads' schedule) is an explicit
argument of the model.
-/

namespace Gross

/-! ## C strings and the libc address conversions -/

/-- A C string: the bytes before the terminating NUL. -/
abbrev CStr := List Nat

/-- The bytes of a string literal. -/
def cstr (s : String) : CStr := s.toList.map Char.toNat

/-- The libc `strlen`. -/
def strlen (s : CStr) : Nat := s.length

/-- The libc `strncpy(dst, src, n)` seen on the contents of `dst`: when `src`
is shorter than `n` the rest is padded with NULs, so `dst` then reads as
`src`; otherwise the first `n` bytes of `dst` are overwritten and no NUL is
written. -/
def strncpy (dst src : CStr) (n : Nat) : CStr :=
  if src.length < n then src else src.take n ++ dst.drop n

/-- The constant `INET_ADDRSTRLEN` of `<netinet/in.h>`. -/
def INET_ADDRSTRLEN : Nat := 16

/-- A `struct in_addr`: the four bytes of the address in memory order
(network byte order). -/
structure in_addr where
  b0 : Nat
  b1 : Nat
  b2 : Nat
  b3 : Nat
deriving DecidableEq, Repr

/-- Reading the `unsigned int` stored in the four bytes of an `in_addr`, on a
little-endian (`le = true`) or big-endian host. -/
def load32 (le : Bool) (a : in_addr) : Nat :=
  if le then a.b0 + a.b1 * 2 ^ 8 + a.b2 * 2 ^ 16 + a.b3 * 2 ^ 24
  else a.b3 + a.b2 * 2 ^ 8 + a.b1 * 2 ^ 16 + a.b0 * 2 ^ 24

/-- The four bytes in memory of an `unsigned int`. -/
def store32 (le : Bool) (v : Nat) : in_addr :=
  if le then ⟨v % 256, v / 2 ^ 8 % 256, v / 2 ^ 16 % 256, v / 2 ^ 24 % 256⟩
  else ⟨v / 2 ^ 24 % 256, v / 2 ^ 16 % 256, v / 2 ^ 8 % 256, v % 256⟩

/-- The test `ch >= '0' && ch <= '9'`. -/
def isDigit (ch : Nat) : Bool := decide (48 ≤ ch) && decide (ch ≤ 57)

/-- The local variables of the libc `inet_pton4` loop: `tmp[0 .. tp-1]` is
`done`, `*tp` is `cur`. -/
structure PtonState where
  saw_digit : Bool
  octets : Nat
  done : List Nat
  cur : Nat
deriving DecidableEq, Repr

/-- The loop of the libc `inet_pton4` (ISC/glibc/BSD) over the remaining
input; `none` is its `return 0`. -/
def inet_pton4_loop : CStr → PtonState → Option PtonState
  | [], st => some st
  | ch :: src, st =>
    if isDigit ch then
      let new := st.cur * 10 + (ch - 48)
      if st.saw_digit && decide (st.cur = 0) then none
      else if new > 255 then none
      else if !st.saw_digit then
        if st.octets + 1 > 4 then none
        else inet_pton4_loop src ⟨true, st.octets + 1, st.done, new⟩
      else inet_pton4_loop src ⟨st.saw_digit, st.octets, st.done, new⟩
    else if decide (ch = 46) && st.saw_digit then
      if st.octets = 4 then none
      else inet_pton4_loop src ⟨false, st.octets, st.done ++ [st.cur], 0⟩
    else none

/-- The libc `inet_pton(AF_INET, src, &addr)`: `some addr` when it returns 1
and `none` when it returns 0 (it returns -1 only for an unknown address
family). -/
def inet_pton (src : CStr) : Option in_addr :=
  match inet_pton4_loop src ⟨false, 0, [], 0⟩ with
  | some st =>
    if st.octets < 4 then none
    else
      match st.done ++ [st.cur] with
      | [a, b, c, d] => some ⟨a, b, c, d⟩
      | _ => none
  | none => none

/-- The decimal text of one octet, as `sprintf("%u")` prints it. -/
def showOctet (n : Nat) : CStr :=
  if n < 10 then [48 + n]
  else if n < 100 then [48 + n / 10, 48 + n % 10]
  else [48 + n / 100, 48 + n / 10 % 10, 48 + n % 10]

/-- The canonical dotted-quad text `a.b.c.d`. -/
def dottedQuad (a b c d : Nat) : CStr :=
  showOctet a ++ 46 :: (showOctet b ++ 46 :: (showOctet c ++ 46 :: showOctet d))

/-- The libc `inet_ntop(AF_INET, &addr, dst, size)`: the text written to
`dst`, or `none` (NULL, `ENOSPC`) when text and NUL do not fit in `size`. -/
def inet_ntop (a : in_addr) (size : Nat) : Option CStr :=
  let s := dottedQuad a.b0 a.b1 a.b2 a.b3
  if s.length + 1 > size then none else some s

/-- One pass of the `for` loop of `reverse_inet_addr` on `(tmp, ipa)`:
`tmp = tmp << 8; tmp |= ipa & 0xff; ipa = ipa >> 8`. -/
def reverseStep (p : Nat × Nat) : Nat × Nat :=
  (((p.1 <<< 8) % 2 ^ 32) ||| (p.2 &&& 0xff), p.2 >>> 8)

/-- The `for (i = 0; i < 4; i++)` loop of `reverse_inet_addr`, from `tmp = 0`. -/
def reverseLoop (ipa : Nat) : Nat :=
  (reverseStep (reverseStep (reverseStep (reverseStep (0, ipa))))).1

/-- The function `reverse_inet_addr(ipstr)` on a host of the given
endianness: `none` when the `assert` fails, else the value returned and the
contents of `ipstr` afterwards. -/
def reverse_inet_addr (le : Bool) (ipstr : CStr) : Option (Int × CStr) :=
  let iplen := strlen ipstr
  if iplen > INET_ADDRSTRLEN then some (-1, ipstr)
  else
    match inet_pton ipstr with
    | none => some (-1, ipstr)
    | some inaddr =>
      let ipa := load32 le inaddr
      let tmp := reverseLoop ipa
      match inet_ntop (store32 le tmp) INET_ADDRSTRLEN with
      | none => some (-1, ipstr)
      | some tmpstr =>
        if strlen tmpstr = iplen then some (0, strncpy ipstr tmpstr iplen)
        else none

/-- A well-formed canonical dotted quad: four decimal octets in 0..255,
without leading zeros, separated by dots. -/
def WellFormedQuad (x : CStr) : Prop :=
  ∃ a b c d : Nat, a < 256 ∧ b < 256 ∧ c < 256 ∧ d < 256 ∧ x = dottedQuad a b c d


/-! ## Requests, results and the check routines -/

/-- The type `grey_tuple_t` of a request: client address, envelope sender,
envelope recipient and the optional HELO name (NULL when absent). -/
structure grey_tuple_t where
  sender : CStr
  recipient : CStr
  client_address : CStr
  helo_name : Option CStr
deriving DecidableEq, Repr

/-- The judgments of a check (`J_UNDEFINED`, `J_PASS`, `J_SUSPICIOUS`,
`J_BLOCK`). -/
inductive judgment_t
  | J_UNDEFINED
  | J_PASS
  | J_SUSPICIOUS
  | J_BLOCK
deriving DecidableEq, Repr

/-- Modelled from the spec: the type `chkresult_t` (its declaration, in
worker.h, is not among the sources): a judgment, an integer weight, an
optional reason string and the `wait` flag. -/
structure chkresult_t where
  judgment : judgment_t
  weight : Int
  reason : Option CStr
  wait : Bool
deriving DecidableEq, Repr

/-- The result after `memset(result, 0, sizeof(*result))`; `j0` is the
enumerator of `judgment_t` whose value is 0. -/
def chkresult_zero (j0 : judgment_t) : chkresult_t :=
  ⟨j0, 0, none, false⟩

/-- A C pointer as the routines use it: `valid v` points to an object the
routine allocated or was given, with contents `v`; `wild m` is a pointer
variable that was never assigned, `m` being whatever the memory it happens to
point to reads as. -/
inductive Ptr (α : Type)
  | valid (v : α)
  | wild (m : α)
deriving DecidableEq, Repr

/-- The contents read through a pointer. -/
def Ptr.deref {α : Type} : Ptr α → α
  | .valid v => v
  | .wild m => m

/-- A store through a pointer. -/
def Ptr.update {α : Type} (f : α → α) : Ptr α → Ptr α
  | .valid v => .valid (f v)
  | .wild m => .wild (f m)

/-- Whether the pointer was assigned. -/
def Ptr.isValid {α : Type} : Ptr α → Bool
  | .valid _ => true
  | .wild _ => false

/-- The cleanup callbacks a routine can leave in its thread context. -/
inductive cleanup_t
  | cleanup_dnsblc
  | cleanup_spfc
deriving DecidableEq, Repr

/-- The per-thread context `thread_ctx_t`: the state pointer (NULL is `none`)
and the cleanup callback. -/
structure thread_ctx_t where
  state : Option Nat
  cleanup : Option cleanup_t
deriving DecidableEq, Repr

/-- The fields of an edict a check routine reads: the job and the time limit
in milliseconds.  The job is not NULL: `thread_pool` asserts so before it
calls the routine, and the routine asserts it again. -/
structure edict_t where
  job : grey_tuple_t
  timelimit : Int
deriving DecidableEq, Repr

/-- What a check routine does that others can see. -/
inductive Event
  | lookup (list : Nat) (query : CStr)
  | send_result (result : Ptr chkresult_t)
  | request_unlink (request : Ptr grey_tuple_t)
deriving DecidableEq, Repr

/-- The results sent in a trace. -/
def sentResults : List Event → List (Ptr chkresult_t)
  | [] => []
  | .send_result r :: es => r :: sentResults es
  | _ :: es => sentResults es

/-- The lookups issued in a trace. -/
def lookups : List Event → List (Nat × CStr)
  | [] => []
  | .lookup i q :: es => (i, q) :: lookups es
  | _ :: es => lookups es

/-- The requests released in a trace. -/
def unlinkedRequests : List Event → List (Ptr grey_tuple_t)
  | [] => []
  | .request_unlink r :: es => r :: unlinkedRequests es
  | _ :: es => unlinkedRequests es

/-! ### check_spf.c -/

/-- The outcomes `SPF_result_t` of libspf2. -/
inductive SPF_result_t
  | SPF_RESULT_INVALID
  | SPF_RESULT_NEUTRAL
  | SPF_RESULT_PASS
  | SPF_RESULT_FAIL
  | SPF_RESULT_SOFTFAIL
  | SPF_RESULT_NONE
  | SPF_RESULT_TEMPERROR
  | SPF_RESULT_PERMERROR
deriving DecidableEq, Repr

/-- What libspf2 answers during one call of `spfc`. -/
structure SpfEnv where
  /-- The handle `SPF_server_new` returns, NULL being `none`. -/
  server_new : Option Nat
  /-- The value of `SPF_request_set_ipv4_str`. -/
  set_ipv4_str : Int
  /-- The value of `SPF_request_set_helo_dom`. -/
  set_helo_dom : Int
  /-- The value of `SPF_request_set_env_from`. -/
  set_env_from : Int
  /-- The value of `SPF_request_query_mailfrom`. -/
  query_mailfrom : Int
  /-- The `SPF_response_result` of the mail-from response. -/
  response_result : SPF_result_t
  /-- The `SPF_response_result` of the rcpt-to response (read only under
  `SECOND_MX_CHECKING`). -/
  response_result_2mx : SPF_result_t
deriving DecidableEq, Repr

/-- What a call of a check routine leaves: the value returned, the thread
context and the trace. -/
structure Run where
  ret : Int
  ctx : thread_ctx_t
  events : List Event
deriving DecidableEq, Repr

/-- The reason string of an SPF failure. -/
def spfReason : CStr := cstr "SPF policy violation"

/-- The labels `CLEANUP:` and `FINISH:` of `spfc`: send the result, release
the request, return 0. -/
def spfc_finish (ctx : thread_ctx_t) (result : chkresult_t) (request : grey_tuple_t) : Run :=
  ⟨0, ctx, [.send_result (.valid result), .request_unlink (.valid request)]⟩

/-- The `switch (ret)` of `spfc` in the build without `SECOND_MX_CHECKING`. -/
def spfc_switch (ret : SPF_result_t) (result : chkresult_t) : chkresult_t :=
  match ret with
  | .SPF_RESULT_FAIL =>
    { result with judgment := .J_BLOCK, reason := some spfReason }
  | .SPF_RESULT_SOFTFAIL =>
    { result with judgment := .J_SUSPICIOUS, weight := 1 }
  | .SPF_RESULT_PASS =>
    { result with judgment := .J_UNDEFINED }
  | _ => result

/-- The block under `#ifdef SECOND_MX_CHECKING` of `spfc`. -/
def spfc_switch_2mx (ret ret2mx : SPF_result_t) (result : chkresult_t) : chkresult_t :=
  if ret ≠ .SPF_RESULT_PASS then
    match ret2mx with
    | .SPF_RESULT_FAIL =>
      { result with judgment := .J_BLOCK, reason := some spfReason }
    | .SPF_RESULT_SOFTFAIL =>
      { result with judgment := .J_SUSPICIOUS }
    | _ => result
  else result

/-- The part of `spfc` from `SPF_request_new` on, with the SPF server at
hand. -/
def spfc_query (secondMx : Bool) (env : SpfEnv) (thread_ctx : thread_ctx_t)
    (result : chkresult_t) (request : grey_tuple_t) : Run :=
  if env.set_ipv4_str ≠ 0 then spfc_finish thread_ctx result request
  else if request.helo_name.isSome && decide (env.set_helo_dom ≠ 0) then
    spfc_finish thread_ctx result request
  else if env.set_env_from ≠ 0 then spfc_finish thread_ctx result request
  else if env.query_mailfrom ≠ 0 then spfc_finish thread_ctx result request
  else
    let ret := env.response_result
    let result :=
      if secondMx then spfc_switch_2mx ret env.response_result_2mx result
      else spfc_switch ret result
    spfc_finish thread_ctx result request

/-- The routine `spfc(info, thread_ctx, edict)`.  `secondMx` says whether the
build defines `SECOND_MX_CHECKING` (nothing in the sources does), `j0` is the
enumerator with value 0. -/
def spfc (secondMx : Bool) (j0 : judgment_t) (env : SpfEnv)
    (thread_ctx : thread_ctx_t) (edict : edict_t) : Run :=
  let request := edict.job
  let result : chkresult_t := { chkresult_zero j0 with judgment := .J_UNDEFINED }
  match thread_ctx.state with
  | none =>
    match env.server_new with
    | none => spfc_finish thread_ctx result request
    | some spf_server =>
      spfc_query secondMx env ⟨some spf_server, some .cleanup_spfc⟩ result request
  | some _ => spfc_query secondMx env thread_ctx result request

/-- Whether every libspf2 call of `spfc` between `SPF_request_new` and
`SPF_response_result` returns 0 (the HELO call is made only when the request
has a HELO name). -/
def spfCallsSucceed (env : SpfEnv) (request : grey_tuple_t) : Bool :=
  decide (env.set_ipv4_str = 0)
    && (!request.helo_name.isSome || decide (env.set_helo_dom = 0))
    && decide (env.set_env_from = 0)
    && decide (env.query_mailfrom = 0)

/-- Whether the call reaches `SPF_response_result`: the thread has an SPF
server or one is created, and every libspf2 call before the outcome is read
returns 0. -/
def spfQueryRuns (env : SpfEnv) (thread_ctx : thread_ctx_t) (edict : edict_t) : Bool :=
  (thread_ctx.state.isSome || env.server_new.isSome) && spfCallsSucceed env edict.job

/-! ### check_dnsbl.c -/

/-- The type `dnsbl_t` of a configured list, without the link to the next
one. -/
structure dnsbl_t where
  name : CStr
  weight : Int
  tolerancecounter : Int
deriving DecidableEq, Repr

/-- The function `add_dnsbl(current, name, weight)`: the new list goes to the
front, its counter at `ERRORTOLERANCE` (a constant of check_dnsbl.h, which is
not among the sources); the `weight` argument is not stored. -/
def add_dnsbl (ERRORTOLERANCE : Int) (current : List dnsbl_t) (name : CStr) (_weight : Int) :
    List dnsbl_t :=
  ⟨name, 0, ERRORTOLERANCE⟩ :: current

/-- The function `query_clearance(dnsbl)`. -/
def query_clearance (dnsbl : dnsbl_t) : Bool :=
  if dnsbl.tolerancecounter > 0 then true else false

/-- The function `tolerate_dnsbl(dnsbl)`. -/
def tolerate_dnsbl (ERRORTOLERANCE : Int) (dnsbl : dnsbl_t) : dnsbl_t :=
  if dnsbl.tolerancecounter < ERRORTOLERANCE then
    { dnsbl with tolerancecounter := dnsbl.tolerancecounter + 1 }
  else dnsbl

/-- The function `increment_dnsbl_tolerance_counters(dnsbl)`. -/
def increment_dnsbl_tolerance_counters (ERRORTOLERANCE : Int) :
    List dnsbl_t → List dnsbl_t
  | [] => []
  | dnsbl :: next =>
    tolerate_dnsbl ERRORTOLERANCE dnsbl :: increment_dnsbl_tolerance_counters ERRORTOLERANCE next

/-- The kinds of DNS check in `check_info->type`; `TYPE_OTHER` is any value
that is none of the three. -/
inductive check_type_t
  | TYPE_DNSBL
  | TYPE_DNSWL
  | TYPE_RHSBL
  | TYPE_OTHER
deriving DecidableEq, Repr

/-- The fields of `dns_check_info_t` that `dnsblc` reads. -/
structure dns_check_info_t where
  type : check_type_t
  dnsbase : List dnsbl_t
deriving DecidableEq, Repr

/-- The c-ares status `ARES_SUCCESS`. -/
def ARES_SUCCESS : Int := 0

/-- One call of `addrinfo_callback` by the resolver: the list of its
`callback_arg_t` (a position in `dnsbase`) and the status. -/
structure Callback where
  list : Nat
  status : Int
deriving DecidableEq, Repr

/-- What the environment shows in one pass of the `do ... while` of `dnsblc`:
the clock reading `ms_diff(&now, &start)`, the value of `ares_fds` and the
queries `ares_process` completes. -/
structure Round where
  timeused : Int
  nfds : Int
  callbacks : List Callback
deriving DecidableEq, Repr

/-- What the environment decides during one call of `dnsblc`. -/
structure DnsEnv where
  /-- The host is little-endian. -/
  le : Bool
  /-- The channel `ares_init` yields, `none` when it fails. -/
  ares_init : Option Nat
  /-- The queries the resolver completes from inside `ares_gethostbyname`. -/
  immediate : List Callback
  /-- The passes of the polling loop; after them the clock is past the limit. -/
  rounds : List Round
  /-- The status `ares_cancel` hands to the queries still pending. -/
  cancel_status : Int
  /-- The indeterminate value of `nfds` before its first assignment. -/
  nfds0 : Int
  /-- What the unassigned `result` pointer happens to point to. -/
  wild_result : chkresult_t
  /-- What the unassigned `request` pointer happens to point to. -/
  wild_request : grey_tuple_t
deriving DecidableEq, Repr

/-- The variables of `dnsblc` the callbacks reach, and the resolver's
pending queries. -/
structure DnsState where
  match_found : Int
  timeout : Int
  dnsbase : List dnsbl_t
  pending : List Nat
deriving DecidableEq, Repr

/-- The statement `cba->dnsbl->tolerancecounter--` for the list at position
`i`. -/
def decrementCounter : Nat → List dnsbl_t → List dnsbl_t
  | _, [] => []
  | 0, dnsbl :: next => { dnsbl with tolerancecounter := dnsbl.tolerancecounter - 1 } :: next
  | i + 1, dnsbl :: next => dnsbl :: decrementCounter i next

/-- The function `addrinfo_callback(arg, status, host)` for the query of list
`cb.list`. -/
def addrinfo_callback (st : DnsState) (cb : Callback) : DnsState :=
  let st := if cb.status = ARES_SUCCESS then { st with match_found := 1 } else st
  if st.timeout ≠ 0 then { st with dnsbase := decrementCounter cb.list st.dnsbase }
  else st

/-- The resolver completes queries: each one that is pending gets its
callback and is pending no more. -/
def complete (st : DnsState) : List Callback → DnsState
  | [] => st
  | cb :: cbs =>
    if cb.list ∈ st.pending then
      complete (addrinfo_callback { st with pending := st.pending.erase cb.list } cb) cbs
    else complete st cbs

/-- The text `snprintf(buffer, MAXQUERYSTRLEN, "%s.%s", qstr, name)` leaves
in `buffer`. -/
def queryString (MAXQUERYSTRLEN : Nat) (qstr name : CStr) : CStr :=
  (qstr ++ 46 :: name).take (MAXQUERYSTRLEN - 1)

/-- The loop `while (dnsbl)` of `dnsblc` that initiates the queries, from
position `i` of `dnsbase`: the lookups issued, in order. -/
def initiate (MAXQUERYSTRLEN : Nat) (qstr : CStr) : Nat → List dnsbl_t → List (Nat × CStr)
  | _, [] => []
  | i, dnsbl :: next =>
    let query := queryString MAXQUERYSTRLEN qstr dnsbl.name
    if query_clearance dnsbl = true then
      (i, query) :: initiate MAXQUERYSTRLEN qstr (i + 1) next
    else initiate MAXQUERYSTRLEN qstr (i + 1) next

/-- The loop `while (! timeout) { do { ... } while (!match_found); ... }` of
`dnsblc`, `nfds` being the current value of that variable.  The `do` loop is
left by a `break` on the clock, by a `break` on `nfds == 0`, or with
`match_found` set; in each case the outer loop then breaks or sets `timeout`,
so its body runs once.  After the last round of the script the clock reads
past the limit. -/
def dnsblc_wait (timelimit : Int) : List Round → Int → DnsState → DnsState
  | [], nfds, st =>
    if st.match_found ≠ 0 ∨ nfds = 0 then st else { st with timeout := 1 }
  | r :: rs, nfds, st =>
    if r.timeused > timelimit then
      if st.match_found ≠ 0 ∨ nfds = 0 then st else { st with timeout := 1 }
    else if r.nfds = 0 then st
    else
      let st := complete st r.callbacks
      if st.match_found ≠ 0 then st
      else dnsblc_wait timelimit rs r.nfds st

/-- The call `ares_cancel(channel)`: every pending query gets its callback. -/
def ares_cancel (cancel_status : Int) (st : DnsState) : DnsState :=
  complete st (st.pending.map (fun i => ⟨i, cancel_status⟩))

/-- The completions of all the rounds of a script, in order. -/
def roundCallbacks : List Round → List Callback
  | [] => []
  | r :: rs => r.callbacks ++ roundCallbacks rs

/-- Every completion the resolver may deliver in a call that issued the
lookups `issued`: those of `ares_gethostbyname`, those of the rounds, and
those of `ares_cancel`, one per lookup with the cancel status. -/
def offeredCompletions (env : DnsEnv) (issued : List (Nat × CStr)) : List Callback :=
  env.immediate ++ roundCallbacks env.rounds
    ++ issued.map (fun q => ⟨q.1, env.cancel_status⟩)

/-- What a call of `dnsblc` leaves: the run, the lists with their counters,
and the value the local variable `match_found` has at `FINISH`. -/
structure DnsRun where
  run : Run
  dnsbase : List dnsbl_t
  match_found : Int
deriving DecidableEq, Repr

/-- The judgment the `if` at `FINISH:` of `dnsblc` stores. -/
def finishJudgment (match_found : Int) (type : check_type_t) : judgment_t :=
  if match_found > 0 then
    if type = .TYPE_DNSWL then .J_PASS else .J_SUSPICIOUS
  else .J_UNDEFINED

/-- The label `FINISH:` of `dnsblc`: set the judgment from `match_found` and
the check type, send the result, release the request, return 0. -/
def dnsblc_finish (type : check_type_t) (ctx : thread_ctx_t) (events : List Event)
    (st : DnsState) (result : Ptr chkresult_t) (request : Ptr grey_tuple_t) : DnsRun :=
  let result := result.update (fun r => { r with judgment := finishJudgment st.match_found type })
  ⟨⟨0, ctx, events ++ [.send_result result, .request_unlink request]⟩, st.dnsbase,
    st.match_found⟩

/-- The search for the last `@` of the sender, `ptr` going down from index
`i`: `while ((ptr > sender) && (*ptr != '@')) ptr--`; the byte at the end of
the string is the NUL. -/
def lastAt (sender : CStr) : Nat → Nat
  | 0 => 0
  | i + 1 => if sender.getD (i + 1) 0 ≠ 64 then lastAt sender i else i + 1

/-- The trace of the lookups issued. -/
def lookupEvents (issued : List (Nat × CStr)) : List Event :=
  issued.map (fun q => .lookup q.1 q.2)

/-- The part of `dnsblc` from `dnsbl = check_info->dnsbase` to `FINISH`. -/
def dnsblc_queries (MAXQUERYSTRLEN : Nat) (env : DnsEnv) (info : dns_check_info_t)
    (ctx : thread_ctx_t) (edict : edict_t) (result : chkresult_t) (qstr : CStr) : DnsRun :=
  let issued := initiate MAXQUERYSTRLEN qstr 0 info.dnsbase
  let st : DnsState := ⟨0, 0, info.dnsbase, issued.map Prod.fst⟩
  let st := complete st env.immediate
  let st := dnsblc_wait edict.timelimit env.rounds env.nfds0 st
  let st := ares_cancel env.cancel_status st
  dnsblc_finish info.type ctx (lookupEvents issued) st
    (.valid result) (.valid edict.job)

/-- The part of `dnsblc` after the resolver channel is at hand. -/
def dnsblc_check (MAXQUERYSTRLEN : Nat) (j0 : judgment_t) (env : DnsEnv)
    (info : dns_check_info_t) (ctx : thread_ctx_t) (edict : edict_t) : Option DnsRun :=
  let request := edict.job
  let result := chkresult_zero j0
  let st0 : DnsState := ⟨0, 0, info.dnsbase, []⟩
  if info.type = .TYPE_DNSBL ∨ info.type = .TYPE_DNSWL then
    let qstr := request.client_address
    if strlen qstr > INET_ADDRSTRLEN - 1 then
      some (dnsblc_finish info.type ctx [] st0 (.valid result) (.valid request))
    else
      match reverse_inet_addr env.le qstr with
      | none => none
      | some (ret, qstr) =>
        if ret < 0 then
          some (dnsblc_finish info.type ctx [] st0 (.valid result) (.valid request))
        else some (dnsblc_queries MAXQUERYSTRLEN env info ctx edict result qstr)
  else if info.type = .TYPE_RHSBL then
    let sender := request.sender
    let ptr := lastAt sender (strlen sender)
    if ptr > 0 then
      some (dnsblc_queries MAXQUERYSTRLEN env info ctx edict result (sender.drop (ptr + 1)))
    else some (dnsblc_finish info.type ctx [] st0 (.valid result) (.valid request))
  else some (dnsblc_finish info.type ctx [] st0 (.valid result) (.valid request))

/-- The routine `dnsblc(info, thread_ctx, edict)`: `none` when the `assert`
of `reverse_inet_addr` fails.  `MAXQUERYSTRLEN` is a constant of
check_dnsbl.h, `j0` the enumerator with value 0. -/
def dnsblc (MAXQUERYSTRLEN : Nat) (j0 : judgment_t) (env : DnsEnv)
    (info : dns_check_info_t) (thread_ctx : thread_ctx_t) (edict : edict_t) : Option DnsRun :=
  match thread_ctx.state with
  | none =>
    match env.ares_init with
    | none =>
      some (dnsblc_finish info.type thread_ctx [] ⟨0, 0, info.dnsbase, []⟩
        (.wild env.wild_result) (.wild env.wild_request))
    | some channel =>
      dnsblc_check MAXQUERYSTRLEN j0 env info ⟨some channel, some .cleanup_dnsblc⟩ edict
  | some _ => dnsblc_check MAXQUERYSTRLEN j0 env info thread_ctx edict


/-! ## thread_pool.c: edicts and their reference count -/

/-- Modelled from the spec: the registry of message queues (msgqueue.c is not
among the sources): every allocated handle with the messages pending in its
queue, oldest first.  A message of a result queue is a result. -/
abbrev MsgQueues := List (Int × List chkresult_t)

/-- Modelled from the spec: `release_queue(handle)` (msgqueue.c is not among
the sources) destroys the queue and fails with `NONEMPTY` if messages remain;
a handle with no queue is an error too.  The value returned and the registry
afterwards. -/
def release_queue (qs : MsgQueues) (handle : Int) : Int × MsgQueues :=
  match qs.lookup handle with
  | some [] => (0, qs.filter (fun q => q.1 ≠ handle))
  | some (_ :: _) => (-1, qs)
  | none => (-1, qs)

/-- Modelled from the spec: `get_msg_timed(handle, &message, size, 0, -1)`
(msgqueue.c is not among the sources) with the negative timeout that means
"infinite": the oldest message of the queue and a positive value; on an empty
queue the call never returns (`none`); a handle with no queue is an error. -/
def get_msg_timed (qs : MsgQueues) (handle : Int) :
    Option (Int × Option chkresult_t × MsgQueues) :=
  match qs.lookup handle with
  | some (m :: ms) =>
    some (1, some m, (handle, ms) :: qs.filter (fun q => q.1 ≠ handle))
  | some [] => none
  | none => some (-1, none, qs)

/-- The reference-counting side of an edict in memory: the handle of its
result queue, `reference.count`, and how many times `free(edict)` has run.
The count is a C `int`; the integer here has no bound and agrees with it as
long as fewer than `2 ^ 31` references are outstanding. -/
structure EdictMem where
  resultmq : Int
  count : Int
  frees : Nat
deriving DecidableEq, Repr

/-- What the teardown of an edict does. -/
inductive Teardown
  | free_result (r : chkresult_t)
  | queue_released (handle : Int)
  | free_edict
deriving DecidableEq, Repr

/-- The function `edict_get(forget)`, `handle` being what `get_queue()`
returns: the memory is zeroed, the result queue reserved unless `forget`, the
count set to 1. -/
def edict_get (forget : Bool) (handle : Int) : EdictMem :=
  let resultmq : Int := if forget = false then handle else 0
  ⟨resultmq, 1, 0⟩

/-- The function `submit_job(pool, job)` on the edict: the count is
incremented, then `put_msg` is called, whatever it returns. -/
def submit_job (job : EdictMem) : EdictMem :=
  { job with count := job.count + 1 }

/-- The head of `edict_unlink`: `assert(edict->reference.count > 0)`, `none`
when it fails, then `--edict->reference.count == 0`: the edict with its new
count and whether this was the last reference. -/
def edict_unlink_count (edict : EdictMem) : Option (EdictMem × Bool) :=
  if edict.count > 0 then
    let edict := { edict with count := edict.count - 1 }
    some (edict, decide (edict.count = 0))
  else none

/-- The loop `while (release_queue(edict->resultmq) < 0) { ... }` of
`edict_unlink`, for at most `fuel` calls of `release_queue`: `none` when the
fuel runs out or `get_msg_timed` blocks for ever. -/
def drainLoop : Nat → MsgQueues → Int → List Teardown → Option (MsgQueues × List Teardown)
  | 0, _, _, _ => none
  | fuel + 1, qs, handle, done =>
    let (ret, qs) := release_queue qs handle
    if ret < 0 then
      match get_msg_timed qs handle with
      | none => none
      | some (ret, message, qs) =>
        if ret > 0 then
          drainLoop fuel qs handle (done ++ (message.map Teardown.free_result).toList)
        else drainLoop fuel qs handle done
    else some (qs, done ++ [.queue_released handle])

/-- The last-reference branch of `edict_unlink`: drain and release the result
queue if `resultmq > 0`, then `free(edict)`. -/
def edict_teardown (fuel : Nat) (qs : MsgQueues) (edict : EdictMem) :
    Option (MsgQueues × EdictMem × List Teardown) :=
  let freed : EdictMem := { edict with frees := edict.frees + 1 }
  if edict.resultmq > 0 then
    match drainLoop fuel qs edict.resultmq [] with
    | none => none
    | some (qs, done) => some (qs, freed, done ++ [.free_edict])
  else some (qs, freed, [.free_edict])

/-- The function `edict_unlink(edict)`: `none` when the `assert` fails or the
drain loop does not end within `fuel` passes. -/
def edict_unlink (fuel : Nat) (qs : MsgQueues) (edict : EdictMem) :
    Option (MsgQueues × EdictMem × List Teardown) :=
  match edict_unlink_count edict with
  | none => none
  | some (edict, last) =>
    if last then edict_teardown fuel qs edict
    else some (qs, edict, [])

/-- A call on an edict, for the count alone. -/
inductive RefOp
  | submit
  | unlink
deriving DecidableEq, Repr

/-- One call on an edict as far as count and `free` go: `submit_job`
increments, `edict_unlink` asserts, decrements and frees at zero. -/
def refStep (edict : EdictMem) : RefOp → Option EdictMem
  | .submit => some (submit_job edict)
  | .unlink =>
    match edict_unlink_count edict with
    | none => none
    | some (edict, last) =>
      if last then some { edict with frees := edict.frees + 1 } else some edict

/-- A sequence of calls on an edict; `none` when an `assert` fails. -/
def refRun (edict : EdictMem) : List RefOp → Option EdictMem
  | [] => some edict
  | op :: ops =>
    match refStep edict op with
    | none => none
    | some edict => refRun edict ops

/-- The count is positive before each `edict_unlink` of the sequence. -/
def PositiveBeforeEachUnlink (edict : EdictMem) : List RefOp → Prop
  | [] => True
  | op :: ops =>
    (op = .unlink → 0 < edict.count) ∧
      match refStep edict op with
      | none => False
      | some edict => PositiveBeforeEachUnlink edict ops

/-- The count is positive before each call of the sequence, `submit_job`
included. -/
def PositiveBeforeEachCall (edict : EdictMem) : List RefOp → Prop
  | [] => True
  | op :: ops =>
    0 < edict.count ∧
      match refStep edict op with
      | none => False
      | some edict => PositiveBeforeEachCall edict ops

/-- The edict and those who refer to it: whether the orchestrator still has
its handle, the pools whose work queue holds the edict (one entry per message)
and the pools of the workers processing it (one entry per worker). -/
structure EdictSys where
  edict : EdictMem
  held : Bool
  queued : List Nat
  processing : List Nat
deriving DecidableEq, Repr

/-- The steps of the system around one edict. -/
inductive EdictAct
  /-- A call `submit_job(pool, edict)`, with whether `put_msg` succeeded. -/
  | submit (pool : Nat) (put_ok : Bool)
  /-- A worker of `pool` gets the edict from the work queue. -/
  | dequeue (pool : Nat)
  /-- A worker of `pool` ends its routine and calls `edict_unlink`. -/
  | finish (pool : Nat)
  /-- The orchestrator calls `edict_unlink` on its handle. -/
  | release
deriving DecidableEq, Repr

/-- One step; `none` when the step cannot be taken in this state or an
`assert` fails.  Only a live edict is submitted. -/
def edictStep (s : EdictSys) : EdictAct → Option EdictSys
  | .submit pool put_ok =>
    if s.edict.frees = 0 then
      let edict := submit_job s.edict
      if put_ok then some { s with edict := edict, queued := pool :: s.queued }
      else some { s with edict := edict }
    else none
  | .dequeue pool =>
    if pool ∈ s.queued then
      some { s with queued := s.queued.erase pool, processing := pool :: s.processing }
    else none
  | .finish pool =>
    if pool ∈ s.processing then
      match refStep s.edict .unlink with
      | none => none
      | some edict => some { s with edict := edict, processing := s.processing.erase pool }
    else none
  | .release =>
    if s.held then
      match refStep s.edict .unlink with
      | none => none
      | some edict => some { s with edict := edict, held := false }
    else none

/-- A sequence of steps. -/
def edictRun (s : EdictSys) : List EdictAct → Option EdictSys
  | [] => some s
  | a :: as =>
    match edictStep s a with
    | none => none
    | some s => edictRun s as

/-- The system right after `edict_get`: the orchestrator has the only
reference. -/
def edictInit (forget : Bool) (handle : Int) : EdictSys :=
  ⟨edict_get forget handle, true, [], []⟩

/-- The number of `submit_job` calls of the sequence whose `put_msg` failed. -/
def failedPuts : List EdictAct → Nat
  | [] => 0
  | .submit _ false :: as => failedPuts as + 1
  | _ :: as => failedPuts as

/-- The sum the specification gives for the count: 1 while the orchestrator
has its handle, plus the queue entries, plus the workers. -/
def referents (s : EdictSys) : Int :=
  (if s.held then 1 else 0) + s.queued.length + s.processing.length


/-! ## thread_pool.c: the worker threads of a pool -/

/-- The counters of `pool_ctx_t` (C `int`s, far from their bounds for any
number of threads a process can have). -/
structure pool_ctx_t where
  count_thread : Int
  count_idle : Int
deriving DecidableEq, Repr

/-- The section of `thread_pool` a worker runs when it enters:
`count_thread++`. -/
def worker_start (ctx : pool_ctx_t) : pool_ctx_t :=
  { ctx with count_thread := ctx.count_thread + 1 }

/-- The section at the top of the `for` loop: `count_idle++`. -/
def worker_idle (ctx : pool_ctx_t) : pool_ctx_t :=
  { ctx with count_idle := ctx.count_idle + 1 }

/-- The section a worker runs when `get_msg_timed` gave it a message:
`count_idle--`, and another thread is created if `count_idle < 1`.  The
counters afterwards and whether `Pthread_create` was called. -/
def worker_message (ctx : pool_ctx_t) : pool_ctx_t × Bool :=
  let ctx := { ctx with count_idle := ctx.count_idle - 1 }
  if ctx.count_idle < 1 then (ctx, true) else (ctx, false)

/-- The section a worker runs when `get_msg_timed` timed out: `count_idle--`,
and if `count_idle > 1` then `count_thread--` and the thread exits.  The
counters afterwards and whether the thread exits. -/
def worker_timeout (ctx : pool_ctx_t) : pool_ctx_t × Bool :=
  let ctx := { ctx with count_idle := ctx.count_idle - 1 }
  if ctx.count_idle > 1 then ({ ctx with count_thread := ctx.count_thread - 1 }, true)
  else (ctx, false)

/-- A pool: its counters and where its threads are.  `created` threads have
been started by `Pthread_create` and have not yet run `count_thread++`;
`entering` threads are at the top of the `for` loop, before `count_idle++`;
`waiting` threads are in `get_msg_timed`; `working` threads run the routine
or `edict_unlink`. -/
structure PoolSys where
  ctx : pool_ctx_t
  created : Nat
  entering : Nat
  waiting : Nat
  working : Nat
deriving DecidableEq, Repr

/-- The steps of a pool, one per mutex-protected section of a worker, and
`done` for the end of a job. -/
inductive PoolAct
  /-- A created thread runs `count_thread++`. -/
  | start
  /-- A thread at the top of the loop runs `count_idle++` and waits. -/
  | idle
  /-- A waiting thread receives an edict. -/
  | message
  /-- A working thread has run the routine and `edict_unlink`. -/
  | done
  /-- The wait of a waiting thread times out. -/
  | timeout
deriving DecidableEq, Repr

/-- One step of some thread of the pool; `none` when no thread is at that
point. -/
def poolStep (s : PoolSys) : PoolAct → Option PoolSys
  | .start =>
    if 0 < s.created then
      some { s with ctx := worker_start s.ctx, created := s.created - 1,
                    entering := s.entering + 1 }
    else none
  | .idle =>
    if 0 < s.entering then
      some { s with ctx := worker_idle s.ctx, entering := s.entering - 1,
                    waiting := s.waiting + 1 }
    else none
  | .message =>
    if 0 < s.waiting then
      let (ctx, spawn) := worker_message s.ctx
      some { s with ctx := ctx, waiting := s.waiting - 1, working := s.working + 1,
                    created := if spawn then s.created + 1 else s.created }
    else none
  | .done =>
    if 0 < s.working then
      some { s with working := s.working - 1, entering := s.entering + 1 }
    else none
  | .timeout =>
    if 0 < s.waiting then
      let (ctx, leave) := worker_timeout s.ctx
      some { s with ctx := ctx, waiting := s.waiting - 1,
                    entering := if leave then s.entering else s.entering + 1 }
    else none

/-- A sequence of steps. -/
def poolRun (s : PoolSys) : List PoolAct → Option PoolSys
  | [] => some s
  | a :: as =>
    match poolStep s a with
    | none => none
    | some s => poolRun s as

/-- The pool as `create_thread_pool` leaves it: both counters 0 and one thread
created. -/
def create_thread_pool : PoolSys :=
  ⟨⟨0, 0⟩, 1, 0, 0, 0⟩

/-- The schedule that brings the pool from `create_thread_pool` to the state
in which the initial worker has registered: it has run `count_thread++` and
`count_idle++`. -/
def registerInitial : List PoolAct := [.start, .idle]


/-! ## Concrete inputs -/

/-- A request from 10.0.0.1. -/
def sampleRequest : grey_tuple_t :=
  ⟨cstr "a@x.example", cstr "b@y.example", cstr "10.0.0.1", none⟩

/-- A request whose client address has only three octets. -/
def malformedRequest : grey_tuple_t :=
  ⟨cstr "a@x.example", cstr "b@y.example", cstr "1.2.3", none⟩

/-- A DNSBL check with one list, which has clearance. -/
def sampleCheck : dns_check_info_t :=
  ⟨.TYPE_DNSBL, [⟨cstr "bl.example", 1, 5⟩]⟩

/-- An environment in which `ares_init` fails; the memory the unassigned
`result` pointer points to reads as a result with `wait` set. -/
def initFailureEnv : DnsEnv :=
  { le := true
    ares_init := none
    immediate := []
    rounds := []
    cancel_status := 1
    nfds0 := 0
    wild_result := ⟨.J_BLOCK, 7, none, true⟩
    wild_request := ⟨[], [], [], none⟩ }

/-- An environment in which `ares_init` succeeds and the one query is
answered with success in the first round. -/
def matchEnv : DnsEnv :=
  { le := true
    ares_init := some 1
    immediate := []
    rounds := [⟨10, 1, [⟨0, ARES_SUCCESS⟩]⟩]
    cancel_status := 1
    nfds0 := 0
    wild_result := ⟨.J_BLOCK, 7, none, true⟩
    wild_request := ⟨[], [], [], none⟩ }

/-- An SPF environment in which the server is created, every call succeeds
and the mail-from outcome is FAIL. -/
def spfFailEnv : SpfEnv :=
  { server_new := some 5
    set_ipv4_str := 0
    set_helo_dom := 0
    set_env_from := 0
    query_mailfrom := 0
    response_result := .SPF_RESULT_FAIL
    response_result_2mx := .SPF_RESULT_NONE }


/-! ## Schedules of a pool -/

/-- The schedule in which, `n` times over, the idle worker receives an edict
and the thread it creates enters the loop and waits; no job ends. -/
def growCycles : Nat → List PoolAct
  | 0 => []
  | n + 1 => [.message, .start, .idle] ++ growCycles n

/-- The pool with `k` workers busy and one waiting. -/
def busyPool (k : Nat) : PoolSys :=
  ⟨⟨k + 1, 1⟩, 0, 0, 1, k⟩

/-! ## The tolerance counters over time -/

/-- What changes the tolerance counters: `add_dnsbl` at configuration, a
replenishment by the maintenance loop (`increment_dnsbl_tolerance_counters`),
and the decrement `addrinfo_callback` makes for the list at a position when
its lookup timed out. -/
inductive ToleranceOp
  | add (name : CStr) (weight : Int)
  | replenish
  | timeout (list : Nat)
deriving DecidableEq, Repr

/-- One change of the counters. -/
def toleranceStep (ERRORTOLERANCE : Int) (lists : List dnsbl_t) : ToleranceOp → List dnsbl_t
  | .add name weight => add_dnsbl ERRORTOLERANCE lists name weight
  | .replenish => increment_dnsbl_tolerance_counters ERRORTOLERANCE lists
  | .timeout i => decrementCounter i lists

/-- A sequence of changes. -/
def toleranceRun (ERRORTOLERANCE : Int) (lists : List dnsbl_t) :
    List ToleranceOp → List dnsbl_t
  | [] => lists
  | op :: ops => toleranceRun ERRORTOLERANCE (toleranceStep ERRORTOLERANCE lists op) ops

/-- The lists after `k` replenishments in a row. -/
def replenishTimes (ERRORTOLERANCE : Int) : Nat → List dnsbl_t → List dnsbl_t
  | 0, lists => lists
  | k + 1, lists =>
    replenishTimes ERRORTOLERANCE k (increment_dnsbl_tolerance_counters ERRORTOLERANCE lists)

/-! ## gross.c: the `filter_bits` setting -/

/-- The libc `isspace` in the C locale. -/
def isSpace (ch : Nat) : Bool := decide (ch = 32) || (decide (9 ≤ ch) && decide (ch ≤ 13))

/-- The digits loop of the libc `atoi`: the value so far and the text left. -/
def atoiDigits : Nat → CStr → Nat
  | acc, [] => acc
  | acc, ch :: rest => if isDigit ch then atoiDigits (acc * 10 + (ch - 48)) rest else acc

/-- Leading white space skipped. -/
def skipSpace : CStr → CStr
  | [] => []
  | ch :: rest => if isSpace ch then skipSpace rest else ch :: rest

/-- The libc `atoi`: white space, an optional sign, decimal digits.  The
value has no bound here; it is the one of the libc as long as it fits an
`int`. -/
def atoi (s : CStr) : Int :=
  match skipSpace s with
  | 45 :: rest => -(atoiDigits 0 rest : Int)
  | 43 :: rest => (atoiDigits 0 rest : Int)
  | rest => (atoiDigits 0 rest : Int)

/-- The decimal digits of `n` in front of `acc`, by at most `fuel` divisions. -/
def showNatAux : Nat → Nat → CStr → CStr
  | 0, _, acc => acc
  | fuel + 1, n, acc =>
    if n < 10 then (48 + n) :: acc
    else showNatAux fuel (n / 10) ((48 + n % 10) :: acc)

/-- The decimal text of a natural number. -/
def showNat (n : Nat) : CStr := showNatAux (n + 1) n []

/-- The decimal text of an integer. -/
def showInt (v : Int) : CStr :=
  if v < 0 then 45 :: showNat (-v).toNat else showNat v.toNat

/-- A configuration: the `name = value` pairs of the `configlist_t`, first
one first. -/
abbrev configlist_t := List (CStr × CStr)

/-- The function `dconf(config, name, default)` (conf.c is not among the
sources), as `configure_grossd` uses it: the value of the first pair with
that name, or the default when there is none. -/
def dconf (config : configlist_t) (name : CStr) (default : CStr) : CStr :=
  match config.lookup name with
  | some value => value
  | none => default

/-- A C integer type: signed or not, and its width in bits. -/
structure CIntType where
  isSigned : Bool
  bits : Nat
deriving DecidableEq, Repr

/-- The conversion of an integer value to a C integer type: reduced modulo
`2 ^ bits`, into the range of the type. -/
def CIntType.convert (t : CIntType) (v : Int) : Int :=
  if t.isSigned then (v + 2 ^ (t.bits - 1)) % 2 ^ t.bits - 2 ^ (t.bits - 1)
  else v % 2 ^ t.bits

/-- How the part of `configure_grossd` that reads `filter_bits` ends:
`daemon_shutdown(1, ...)` ends the daemon with that exit status, or the
function goes on with `ctx->config.filter_size` set. -/
inductive ConfigOutcome
  | shutdown (status : Int)
  | configured (filter_size : Int)
deriving DecidableEq, Repr

/-- The part of `configure_grossd` for `filter_bits`:
`filter_size = atoi(dconf(config, "filter_bits", "22"))` and the range check.
`bitindex_t`, the type of `filter_size`, is declared in bloom.h, which is not
among the sources. -/
def configure_grossd_filter_bits (bitindex_t : CIntType) (config : configlist_t) :
    ConfigOutcome :=
  let filter_size := bitindex_t.convert (atoi (dconf config (cstr "filter_bits") (cstr "22")))
  if filter_size < 5 ∨ filter_size > 32 then .shutdown 1
  else .configured filter_size

/-! ## The RHSBL check -/

/-- The lookups of a label against the lists: for each list that has
clearance, in order, its position and the text `snprintf` leaves for
`<label>.<list>` in a buffer of `MAXQUERYSTRLEN` bytes. -/
def clearedQueries (MAXQUERYSTRLEN : Nat) (label : CStr) (dnsbase : List dnsbl_t) :
    List (Nat × CStr) :=
  (dnsbase.enum.filter (fun p => query_clearance p.2)).map
    (fun p => (p.1, queryString MAXQUERYSTRLEN label p.2.name))

/-- An RHSBL check with two lists, the second without clearance. -/
def rhsblCheck : dns_check_info_t :=
  ⟨.TYPE_RHSBL, [⟨cstr "rhsbl.example", 1, 5⟩, ⟨cstr "off.example", 1, 0⟩]⟩

/-- A request whose sender has its only `@` at position 0. -/
def atZeroRequest : grey_tuple_t :=
  ⟨cstr "@example.com", cstr "b@y.example", cstr "10.0.0.1", none⟩

/-- An environment in which `ares_init` succeeds and no query is answered
before the time limit. -/
def quietEnv : DnsEnv :=
  { le := true
    ares_init := some 1
    immediate := []
    rounds := []
    cancel_status := 1
    nfds0 := 1
    wild_result := ⟨.J_BLOCK, 7, none, true⟩
    wild_request := ⟨[], [], [], none⟩ }


/-! ## Facts about the address conversions -/

theorem reverseStep_eq (t x : Nat) (ht : t < 2 ^ 24) :
    reverseStep (t, x) = (t * 256 + x % 256, x / 256) := by
  have h1 : (t <<< 8) % 2 ^ 32 = 2 ^ 8 * t := by
    rw [Nat.shiftLeft_eq, Nat.mod_eq_of_lt (by omega)]; ring
  have h2 : x &&& 0xff = x % 2 ^ 8 := Nat.and_pow_two_sub_one_eq_mod x 8
  have h3 : x >>> 8 = x / 2 ^ 8 := Nat.shiftRight_eq_div_pow x 8
  have h4 : x % 2 ^ 8 < 2 ^ 8 := Nat.mod_lt _ (by norm_num)
  simp only [reverseStep, h1, h2, h3, ← Nat.mul_add_lt_is_or h4]
  norm_num
  ring

theorem reverseLoop_load32 (le : Bool) (a b c d : Nat)
    (ha : a < 256) (hb : b < 256) (hc : c < 256) (hd : d < 256) :
    reverseLoop (load32 le ⟨a, b, c, d⟩) = load32 le ⟨d, c, b, a⟩ := by
  have key : ∀ x : Nat, reverseLoop x =
      ((x % 256 * 256 + x / 256 % 256) * 256 + x / 256 / 256 % 256) * 256
        + x / 256 / 256 / 256 % 256 := by
    intro x
    unfold reverseLoop
    rw [reverseStep_eq 0 x (by norm_num)]
    rw [reverseStep_eq (0 * 256 + x % 256) (x / 256) (by omega)]
    rw [reverseStep_eq ((0 * 256 + x % 256) * 256 + x / 256 % 256) (x / 256 / 256) (by omega)]
    rw [reverseStep_eq _ (x / 256 / 256 / 256) (by omega)]
    simp
  rw [key]
  cases le <;> simp only [load32] <;> norm_num <;> omega

theorem store32_load32 (le : Bool) (a b c d : Nat)
    (ha : a < 256) (hb : b < 256) (hc : c < 256) (hd : d < 256) :
    store32 le (load32 le ⟨a, b, c, d⟩) = ⟨a, b, c, d⟩ := by
  cases le <;> simp only [load32, store32] <;> norm_num <;> refine ⟨?_, ?_, ?_, ?_⟩ <;> omega

theorem isDigit_add (d : Nat) (h : d < 10) : isDigit (48 + d) = true := by
  simp [isDigit]; omega

theorem isDigit_dot : isDigit 46 = false := by decide

theorem loop_showOctet (n k : Nat) (done : List Nat) (rest : CStr) (hn : n < 256) (hk : k < 4) :
    inet_pton4_loop (showOctet n ++ rest) ⟨false, k, done, 0⟩
      = inet_pton4_loop rest ⟨true, k + 1, done, n⟩ := by
  have h7 : ¬ (255 < n) := by omega
  have h8 : ¬ (4 < k + 1) := by omega
  unfold showOctet
  split
  · have h1 : isDigit (48 + n) = true := isDigit_add _ (by omega)
    simp [inet_pton4_loop, h1, h7, h8]
  · split
    · have h1 : isDigit (48 + n / 10) = true := isDigit_add _ (by omega)
      have h2 : isDigit (48 + n % 10) = true := isDigit_add _ (by omega)
      have h3 : n / 10 ≠ 0 := by omega
      have h4 : ¬ (255 < n / 10 * 10 + n % 10) := by omega
      have h5 : ¬ (255 < n / 10) := by omega
      have h6 : n / 10 * 10 + n % 10 = n := by omega
      simp [inet_pton4_loop, h1, h2, h3, h4, h5, h6, h7, h8]
    · have h1 : isDigit (48 + n / 100) = true := isDigit_add _ (by omega)
      have h2 : isDigit (48 + n / 10 % 10) = true := isDigit_add _ (by omega)
      have h2' : isDigit (48 + n % 10) = true := isDigit_add _ (by omega)
      have h3 : n / 100 ≠ 0 := by omega
      have h3' : n / 100 * 10 + n / 10 % 10 ≠ 0 := by omega
      have h4 : ¬ (255 < n / 100 * 10 + n / 10 % 10) := by omega
      have h4' : ¬ (255 < (n / 100 * 10 + n / 10 % 10) * 10 + n % 10) := by omega
      have h5 : ¬ (255 < n / 100) := by omega
      have h6 : (n / 100 * 10 + n / 10 % 10) * 10 + n % 10 = n := by omega
      simp [inet_pton4_loop, h1, h2, h2', h3, h3', h4, h4', h5, h6, h7, h8]

theorem loop_dot (k n : Nat) (done : List Nat) (rest : CStr) (hk : k ≠ 4) :
    inet_pton4_loop (46 :: rest) ⟨true, k, done, n⟩
      = inet_pton4_loop rest ⟨false, k, done ++ [n], 0⟩ := by
  simp [inet_pton4_loop, isDigit_dot, hk]

theorem inet_pton_dottedQuad (a b c d : Nat)
    (ha : a < 256) (hb : b < 256) (hc : c < 256) (hd : d < 256) :
    inet_pton (dottedQuad a b c d) = some ⟨a, b, c, d⟩ := by
  unfold inet_pton dottedQuad
  rw [loop_showOctet a 0 _ _ ha (by norm_num), loop_dot _ _ _ _ (by norm_num),
    loop_showOctet b 1 _ _ hb (by norm_num), loop_dot _ _ _ _ (by norm_num),
    loop_showOctet c 2 _ _ hc (by norm_num), loop_dot _ _ _ _ (by norm_num)]
  have := loop_showOctet d 3 [a, b, c] [] hd (by norm_num)
  rw [List.append_nil] at this
  simp [this, inet_pton4_loop]

theorem showOctet_snoc (v ch : Nat) (hv : v ≠ 0) (hd : isDigit ch = true)
    (hnew : ¬ (v * 10 + (ch - 48) > 255)) :
    showOctet v ++ [ch] = showOctet (v * 10 + (ch - 48)) := by
  simp only [isDigit, Bool.and_eq_true, decide_eq_true_eq] at hd
  unfold showOctet
  have c1 : ¬ (v * 10 + (ch - 48) < 10) := by omega
  rw [if_neg c1]
  by_cases h10 : v < 10
  · have c2 : v * 10 + (ch - 48) < 100 := by omega
    rw [if_pos h10, if_pos c2]
    simp only [List.singleton_append, List.cons.injEq, and_true]
    constructor <;> omega
  · have c2 : ¬ (v * 10 + (ch - 48) < 100) := by omega
    have c3 : v < 100 := by omega
    rw [if_neg h10, if_pos c3, if_neg c2]
    simp only [List.cons_append, List.nil_append, List.cons.injEq, and_true]
    refine ⟨?_, ?_, ?_⟩ <;> omega

theorem loop_digits_sound (src : CStr) :
    ∀ (k : Nat) (done : List Nat) (v : Nat) (fin : PtonState), v ≤ 255 →
      inet_pton4_loop src ⟨true, k, done, v⟩ = some fin →
      ∃ w ds tail, w ≤ 255 ∧ src = ds ++ tail ∧ showOctet v ++ ds = showOctet w ∧
        ((tail = [] ∧ fin = ⟨true, k, done, w⟩) ∨
         (∃ tail', tail = 46 :: tail' ∧ k ≠ 4 ∧
            inet_pton4_loop tail' ⟨false, k, done ++ [w], 0⟩ = some fin)) := by
  induction src with
  | nil =>
    intro k done v fin hv h
    simp only [inet_pton4_loop, Option.some.injEq] at h
    exact ⟨v, [], [], hv, rfl, by simp, Or.inl ⟨rfl, h.symm⟩⟩
  | cons ch src ih =>
    intro k done v fin hv h
    by_cases hd : isDigit ch = true
    · simp only [inet_pton4_loop, hd, if_true, Bool.true_and, decide_eq_true_eq,
        Bool.not_true] at h
      by_cases hv0 : v = 0
      · simp [hv0] at h
      · rw [if_neg hv0] at h
        by_cases hnew : v * 10 + (ch - 48) > 255
        · simp [hnew] at h
        · rw [if_neg hnew] at h
          simp only [Bool.false_eq_true, if_false] at h
          obtain ⟨w, ds, tail, hw, hsrc, hshow, hfin⟩ := ih k done _ fin (by omega) h
          refine ⟨w, ch :: ds, tail, hw, by simp [hsrc], ?_, hfin⟩
          rw [← hshow, ← showOctet_snoc v ch hv0 hd hnew]
          simp
    · simp only [inet_pton4_loop, hd, Bool.false_eq_true, if_false, Bool.and_true,
        decide_eq_true_eq] at h
      by_cases hdot : ch = 46
      · subst hdot
        simp only [if_true] at h
        by_cases hk : k = 4
        · simp [hk] at h
        · rw [if_neg hk] at h
          exact ⟨v, [], 46 :: src, hv, rfl, by simp, Or.inr ⟨src, rfl, hk, h⟩⟩
      · simp [hdot] at h

theorem loop_octet_sound (src : CStr) (k : Nat) (done : List Nat) (fin : PtonState)
    (h : inet_pton4_loop src ⟨false, k, done, 0⟩ = some fin) :
    (src = [] ∧ fin = ⟨false, k, done, 0⟩) ∨
    ∃ w tail, w ≤ 255 ∧ k + 1 ≤ 4 ∧ src = showOctet w ++ tail ∧
      ((tail = [] ∧ fin = ⟨true, k + 1, done, w⟩) ∨
       (∃ tail', tail = 46 :: tail' ∧ k + 1 ≠ 4 ∧
          inet_pton4_loop tail' ⟨false, k + 1, done ++ [w], 0⟩ = some fin)) := by
  cases src with
  | nil =>
    simp only [inet_pton4_loop, Option.some.injEq] at h
    exact Or.inl ⟨rfl, h.symm⟩
  | cons ch src =>
    right
    by_cases hd : isDigit ch = true
    · have hd' := hd
      simp only [isDigit, Bool.and_eq_true, decide_eq_true_eq] at hd'
      simp only [inet_pton4_loop, hd, if_true, Bool.false_and, Bool.false_eq_true, if_false,
        Bool.not_false, Nat.zero_mul, Nat.zero_add] at h
      by_cases hnew : ch - 48 > 255
      · omega
      · rw [if_neg hnew] at h
        by_cases hk : k + 1 > 4
        · simp [hk] at h
        · rw [if_neg hk] at h
          obtain ⟨w, ds, tail, hw, hsrc, hshow, hfin⟩ :=
            loop_digits_sound src (k + 1) done _ fin (by omega) h
          refine ⟨w, tail, hw, by omega, ?_, hfin⟩
          have h1 : showOctet (ch - 48) = [ch] := by
            unfold showOctet
            rw [if_pos (by omega)]
            congr 1
            omega
          rw [← hshow, h1, hsrc]
          simp
    · simp [inet_pton4_loop, hd] at h

theorem inet_pton_sound (x : CStr) (addr : in_addr) (h : inet_pton x = some addr) :
    addr.b0 < 256 ∧ addr.b1 < 256 ∧ addr.b2 < 256 ∧ addr.b3 < 256 ∧
      x = dottedQuad addr.b0 addr.b1 addr.b2 addr.b3 := by
  unfold inet_pton at h
  split at h
  case h_2 => exact absurd h (by simp)
  case h_1 fin hloop =>
    split at h
    case isTrue => exact absurd h (by simp)
    case isFalse hoct =>
      rcases loop_octet_sound _ _ _ _ hloop with ⟨_, hf⟩ | ⟨a, t1, ha, _, hx1, h1⟩
      · rw [hf] at hoct; simp at hoct
      rcases h1 with ⟨_, hf⟩ | ⟨t1', ht1, _, hloop1⟩
      · rw [hf] at hoct; simp at hoct
      rcases loop_octet_sound _ _ _ _ hloop1 with ⟨_, hf⟩ | ⟨b, t2, hb, _, hx2, h2⟩
      · rw [hf] at hoct; simp at hoct
      rcases h2 with ⟨_, hf⟩ | ⟨t2', ht2, _, hloop2⟩
      · rw [hf] at hoct; simp at hoct
      rcases loop_octet_sound _ _ _ _ hloop2 with ⟨_, hf⟩ | ⟨c, t3, hc, _, hx3, h3⟩
      · rw [hf] at hoct; simp at hoct
      rcases h3 with ⟨_, hf⟩ | ⟨t3', ht3, _, hloop3⟩
      · rw [hf] at hoct; simp at hoct
      rcases loop_octet_sound _ _ _ _ hloop3 with ⟨_, hf⟩ | ⟨d, t4, hd, _, hx4, h4⟩
      · rw [hf] at hoct; simp at hoct
      rcases h4 with ⟨ht4, hf⟩ | ⟨t4', _, hne, _⟩
      · rw [hf] at h
        simp only [List.nil_append, List.cons_append, Option.some.injEq] at h
        subst h
        simp only [dottedQuad]
        rw [hx1, ht1, hx2, ht2, hx3, ht3, hx4, ht4]
        simp
        omega
      · exact absurd rfl hne

theorem showOctet_length_pos (n : Nat) : 1 ≤ (showOctet n).length := by
  unfold showOctet; split_ifs <;> simp

theorem showOctet_length_le (n : Nat) : (showOctet n).length ≤ 3 := by
  unfold showOctet; split_ifs <;> simp

theorem dottedQuad_length (a b c d : Nat) :
    (dottedQuad a b c d).length
      = (showOctet a).length + (showOctet b).length + (showOctet c).length
        + (showOctet d).length + 3 := by
  simp only [dottedQuad, List.length_append, List.length_cons]
  omega

theorem dottedQuad_length_le (a b c d : Nat) : (dottedQuad a b c d).length ≤ 15 := by
  have := showOctet_length_le a
  have := showOctet_length_le b
  have := showOctet_length_le c
  have := showOctet_length_le d
  rw [dottedQuad_length]; omega

theorem dottedQuad_length_reverse (a b c d : Nat) :
    (dottedQuad d c b a).length = (dottedQuad a b c d).length := by
  rw [dottedQuad_length, dottedQuad_length]; omega

theorem strncpy_same_length (dst src : CStr) (h : src.length = dst.length) :
    strncpy dst src dst.length = src := by
  unfold strncpy
  rw [if_neg (by omega), ← h, List.take_length, List.drop_eq_nil_of_le (by omega),
    List.append_nil]

theorem reverse_inet_addr_dottedQuad (le : Bool) (a b c d : Nat)
    (ha : a < 256) (hb : b < 256) (hc : c < 256) (hd : d < 256) :
    reverse_inet_addr le (dottedQuad a b c d) = some (0, dottedQuad d c b a) := by
  have hlen := dottedQuad_length_le a b c d
  have hlen' := dottedQuad_length_le d c b a
  have hrev := dottedQuad_length_reverse a b c d
  unfold reverse_inet_addr
  simp only [strlen, INET_ADDRSTRLEN]
  rw [if_neg (by omega), inet_pton_dottedQuad a b c d ha hb hc hd]
  simp only [reverseLoop_load32 le a b c d ha hb hc hd,
    store32_load32 le d c b a hd hc hb ha, inet_ntop]
  rw [if_neg (by omega)]
  simp only [strlen]
  rw [if_pos hrev, strncpy_same_length _ _ hrev]

/-- C1: for every well-formed canonical dotted quad `x`, on a host of either
endianness, `reverse_inet_addr` returns 0 and leaves some text `y` in the
buffer, and called again on `y` it returns 0 and leaves `x`. -/
theorem reverse_inet_addr_round_trip (le : Bool) (x : CStr) (hx : WellFormedQuad x) :
    ∃ y, reverse_inet_addr le x = some (0, y) ∧ reverse_inet_addr le y = some (0, x) := by
  obtain ⟨a, b, c, d, ha, hb, hc, hd, rfl⟩ := hx
  exact ⟨dottedQuad d c b a, reverse_inet_addr_dottedQuad le a b c d ha hb hc hd,
    reverse_inet_addr_dottedQuad le d c b a hd hc hb ha⟩

theorem reverse_inet_addr_round_trip_witness :
    WellFormedQuad (cstr "192.168.10.7") ∧
    ∃ y, reverse_inet_addr true (cstr "192.168.10.7") = some (0, y) ∧
      reverse_inet_addr true y = some (0, cstr "192.168.10.7") :=
  have hx : WellFormedQuad (cstr "192.168.10.7") :=
    ⟨192, 168, 10, 7, by decide, by decide, by decide, by decide, by decide⟩
  ⟨hx, reverse_inet_addr_round_trip true (cstr "192.168.10.7") hx⟩

/-- C2: for all octets `a b c d` in 0..255 and either endianness,
`reverse_inet_addr` on the text `a.b.c.d` returns 0 (it does not abort on its
`assert`) and leaves `d.c.b.a` in the buffer, which is as long as the text it
was given. -/
theorem reverse_inet_addr_reverses (le : Bool) (a b c d : Nat)
    (ha : a < 256) (hb : b < 256) (hc : c < 256) (hd : d < 256) :
    reverse_inet_addr le (dottedQuad a b c d) = some (0, dottedQuad d c b a) ∧
      strlen (dottedQuad d c b a) = strlen (dottedQuad a b c d) :=
  ⟨reverse_inet_addr_dottedQuad le a b c d ha hb hc hd, dottedQuad_length_reverse a b c d⟩

theorem reverse_inet_addr_reverses_witness :
    reverse_inet_addr true (cstr "1.2.3.4") = some (0, cstr "4.3.2.1") ∧
      strlen (cstr "4.3.2.1") = strlen (cstr "1.2.3.4") :=
  reverse_inet_addr_reverses true 1 2 3 4 (by decide) (by decide) (by decide) (by decide)

theorem reverse_inet_addr_examples :
    reverse_inet_addr false (cstr "192.168.10.7") = some (0, cstr "7.10.168.192") ∧
    reverse_inet_addr true (cstr "255.0.100.9") = some (0, cstr "9.100.0.255") ∧
    reverse_inet_addr true (cstr "1.2.3.256") = some (-1, cstr "1.2.3.256") ∧
    reverse_inet_addr true (cstr "01.2.3.4") = some (-1, cstr "01.2.3.4") ∧
    reverse_inet_addr true (cstr "1.2.3.4.") = some (-1, cstr "1.2.3.4.") ∧
    reverse_inet_addr true (cstr "") = some (-1, cstr "") := by
  decide

/-! ## The check routines -/

theorem spfc_query_eq (env : SpfEnv) (ctx : thread_ctx_t)
    (result : chkresult_t) (request : grey_tuple_t) :
    spfc_query false env ctx result request
      = spfc_finish ctx
          (if spfCallsSucceed env request then spfc_switch env.response_result result
           else result) request := by
  unfold spfc_query spfCallsSucceed
  by_cases h1 : env.set_ipv4_str = 0 <;> by_cases h2 : env.set_helo_dom = 0 <;>
    by_cases h3 : env.set_env_from = 0 <;> by_cases h4 : env.query_mailfrom = 0 <;>
    cases request.helo_name <;> simp [h1, h2, h3, h4]

theorem spfc_switch_wait (ret : SPF_result_t) (result : chkresult_t) :
    (spfc_switch ret result).wait = result.wait := by
  cases ret <;> rfl

theorem spfc_eq (j0 : judgment_t) (env : SpfEnv) (thread_ctx : thread_ctx_t)
    (edict : edict_t) :
    ∃ ctx, spfc false j0 env thread_ctx edict
      = spfc_finish ctx
          (if spfQueryRuns env thread_ctx edict then
            spfc_switch env.response_result ⟨.J_UNDEFINED, 0, none, false⟩
           else ⟨.J_UNDEFINED, 0, none, false⟩) edict.job := by
  unfold spfc spfQueryRuns
  cases hs : thread_ctx.state with
  | none =>
    cases hn : env.server_new with
    | none => exact ⟨thread_ctx, by simp [chkresult_zero]⟩
    | some srv =>
      exact ⟨⟨some srv, some .cleanup_spfc⟩, by simp [spfc_query_eq, chkresult_zero]⟩
  | some st => exact ⟨thread_ctx, by simp [spfc_query_eq, chkresult_zero]⟩

/-- C3: in the build without `SECOND_MX_CHECKING`, `spfc` sends one result;
when the mail-from query runs, its judgment is BLOCK with reason
"SPF policy violation" for FAIL, SUSPICIOUS with weight 1 for SOFTFAIL and
UNDEFINED for PASS and for every other outcome; when the server cannot be
created or a libspf2 call before the outcome fails, it is UNDEFINED. -/
theorem spfc_verdict (j0 : judgment_t) (env : SpfEnv) (thread_ctx : thread_ctx_t)
    (edict : edict_t) :
    ∃ r, sentResults (spfc false j0 env thread_ctx edict).events = [.valid r] ∧
      (spfQueryRuns env thread_ctx edict = true →
        (env.response_result = .SPF_RESULT_FAIL →
          r.judgment = .J_BLOCK ∧ r.reason = some (cstr "SPF policy violation")) ∧
        (env.response_result = .SPF_RESULT_SOFTFAIL →
          r.judgment = .J_SUSPICIOUS ∧ r.weight = 1) ∧
        (env.response_result = .SPF_RESULT_PASS → r.judgment = .J_UNDEFINED) ∧
        (env.response_result ≠ .SPF_RESULT_FAIL →
          env.response_result ≠ .SPF_RESULT_SOFTFAIL → r.judgment = .J_UNDEFINED)) ∧
      (spfQueryRuns env thread_ctx edict = false → r.judgment = .J_UNDEFINED) := by
  obtain ⟨ctx, h⟩ := spfc_eq j0 env thread_ctx edict
  rw [h]
  refine ⟨_, rfl, ?_, ?_⟩
  · intro hq
    rw [if_pos hq]
    refine ⟨?_, ?_, ?_, ?_⟩
    · intro hr; rw [hr]; exact ⟨rfl, rfl⟩
    · intro hr; rw [hr]; exact ⟨rfl, rfl⟩
    · intro hr; rw [hr]; rfl
    · intro h1 h2
      cases hr : env.response_result <;> first | rfl | exact absurd hr h1 | exact absurd hr h2
  · intro hq
    rw [hq]
    rfl

theorem reverse_inet_addr_total (le : Bool) (x : CStr) :
    ∃ ret y, reverse_inet_addr le x = some (ret, y) ∧ (¬ WellFormedQuad x → ret = -1 ∧ y = x) := by
  unfold reverse_inet_addr
  simp only []
  split_ifs with hlen
  · exact ⟨-1, x, rfl, fun _ => ⟨rfl, rfl⟩⟩
  · cases hp : inet_pton x with
    | none => exact ⟨-1, x, rfl, fun _ => ⟨rfl, rfl⟩⟩
    | some addr =>
      obtain ⟨h0, h1, h2, h3, hx⟩ := inet_pton_sound x addr hp
      have hwf : WellFormedQuad x := ⟨_, _, _, _, h0, h1, h2, h3, hx⟩
      have hrev := reverse_inet_addr_dottedQuad le addr.b0 addr.b1 addr.b2 addr.b3 h0 h1 h2 h3
      rw [← hx] at hrev
      unfold reverse_inet_addr at hrev
      simp only [] at hrev
      rw [if_neg hlen, hp] at hrev
      exact ⟨0, _, hrev, fun h => absurd hwf h⟩

theorem wellFormedQuad_length (x : CStr) (h : WellFormedQuad x) : strlen x ≤ 15 := by
  obtain ⟨a, b, c, d, _, _, _, _, rfl⟩ := h
  exact dottedQuad_length_le a b c d

theorem sentResults_append (es fs : List Event) :
    sentResults (es ++ fs) = sentResults es ++ sentResults fs := by
  induction es with
  | nil => rfl
  | cons e es ih => cases e <;> simp [sentResults, ih]

theorem lookups_append (es fs : List Event) :
    lookups (es ++ fs) = lookups es ++ lookups fs := by
  induction es with
  | nil => rfl
  | cons e es ih => cases e <;> simp [lookups, ih]

theorem unlinkedRequests_append (es fs : List Event) :
    unlinkedRequests (es ++ fs) = unlinkedRequests es ++ unlinkedRequests fs := by
  induction es with
  | nil => rfl
  | cons e es ih => cases e <;> simp [unlinkedRequests, ih]

theorem sentResults_lookups (issued : List (Nat × CStr)) :
    sentResults (lookupEvents issued) = [] := by
  induction issued with
  | nil => rfl
  | cons q qs ih => simpa [sentResults, lookupEvents] using ih

theorem unlinkedRequests_lookups (issued : List (Nat × CStr)) :
    unlinkedRequests (lookupEvents issued) = [] := by
  induction issued with
  | nil => rfl
  | cons q qs ih => simpa [unlinkedRequests, lookupEvents] using ih

theorem lookups_lookups (issued : List (Nat × CStr)) :
    lookups (lookupEvents issued) = issued := by
  induction issued with
  | nil => rfl
  | cons q qs ih =>
    simp only [lookupEvents, List.map_cons, lookups] at ih ⊢
    rw [ih]

theorem dnsblc_finish_sent (type : check_type_t) (ctx : thread_ctx_t)
    (issued : List (Nat × CStr)) (st : DnsState) (result : Ptr chkresult_t)
    (request : Ptr grey_tuple_t) :
    sentResults (dnsblc_finish type ctx (lookupEvents issued) st
        result request).run.events
      = [result.update (fun r => { r with judgment := finishJudgment st.match_found type })] := by
  simp only [dnsblc_finish, sentResults_append, sentResults_lookups, sentResults,
    List.nil_append]

theorem dnsblc_finish_lookups (type : check_type_t) (ctx : thread_ctx_t)
    (issued : List (Nat × CStr)) (st : DnsState) (result : Ptr chkresult_t)
    (request : Ptr grey_tuple_t) :
    lookups (dnsblc_finish type ctx (lookupEvents issued) st
        result request).run.events = issued := by
  simp only [dnsblc_finish, lookups_append, lookups_lookups, lookups, List.append_nil]

theorem dnsblc_finish_unlinked (type : check_type_t) (ctx : thread_ctx_t)
    (issued : List (Nat × CStr)) (st : DnsState) (result : Ptr chkresult_t)
    (request : Ptr grey_tuple_t) :
    unlinkedRequests (dnsblc_finish type ctx (lookupEvents issued) st
        result request).run.events = [request] := by
  simp only [dnsblc_finish, unlinkedRequests_append, unlinkedRequests_lookups,
    unlinkedRequests, List.nil_append]

theorem update_judgment_deref (result : Ptr chkresult_t) (j : judgment_t) :
    (result.update (fun r => { r with judgment := j })).deref.judgment = j := by
  cases result <;> rfl

/-- A completion that sets the flag: its status is `ARES_SUCCESS` and its
query is one of `pending`. -/
theorem addrinfo_callback_match (st : DnsState) (cb : Callback) :
    (addrinfo_callback st cb).pending = st.pending ∧
      ((addrinfo_callback st cb).match_found = st.match_found ∨
        ((addrinfo_callback st cb).match_found = 1 ∧ cb.status = ARES_SUCCESS)) := by
  unfold addrinfo_callback
  by_cases hs : cb.status = ARES_SUCCESS <;> by_cases ht : st.timeout = 0 <;>
    simp [hs, ht]

theorem complete_match (cbs : List Callback) :
    ∀ st : DnsState,
      (∀ i ∈ (complete st cbs).pending, i ∈ st.pending) ∧
      ((complete st cbs).match_found = st.match_found ∨
        ∃ cb ∈ cbs, cb.status = ARES_SUCCESS ∧ cb.list ∈ st.pending) := by
  induction cbs with
  | nil => intro st; exact ⟨fun _ h => h, Or.inl rfl⟩
  | cons cb cbs ih =>
    intro st
    unfold complete
    by_cases hin : cb.list ∈ st.pending
    · rw [if_pos hin]
      obtain ⟨hp, hm⟩ := addrinfo_callback_match { st with pending := st.pending.erase cb.list } cb
      obtain ⟨hsub, hmatch⟩ := ih (addrinfo_callback { st with pending := st.pending.erase cb.list } cb)
      rw [hp] at hsub hmatch
      refine ⟨fun i hi => List.mem_of_mem_erase (hsub i hi), ?_⟩
      rcases hmatch with he | ⟨cb', hcb', hs', hl'⟩
      · rcases hm with hm | ⟨_, hs⟩
        · exact Or.inl (by rw [he, hm])
        · exact Or.inr ⟨cb, List.mem_cons_self _ _, hs, hin⟩
      · exact Or.inr ⟨cb', List.mem_cons_of_mem _ hcb', hs', List.mem_of_mem_erase hl'⟩
    · rw [if_neg hin]
      obtain ⟨hsub, hmatch⟩ := ih st
      refine ⟨hsub, ?_⟩
      rcases hmatch with he | ⟨cb', hcb', hs', hl'⟩
      · exact Or.inl he
      · exact Or.inr ⟨cb', List.mem_cons_of_mem _ hcb', hs', hl'⟩

theorem dnsblc_wait_match (timelimit : Int) (rounds : List Round) :
    ∀ (nfds : Int) (st : DnsState),
      (∀ i ∈ (dnsblc_wait timelimit rounds nfds st).pending, i ∈ st.pending) ∧
      ((dnsblc_wait timelimit rounds nfds st).match_found = st.match_found ∨
        ∃ cb ∈ roundCallbacks rounds, cb.status = ARES_SUCCESS ∧ cb.list ∈ st.pending) := by
  induction rounds with
  | nil =>
    intro nfds st
    unfold dnsblc_wait
    split_ifs <;> exact ⟨fun _ h => h, Or.inl rfl⟩
  | cons r rs ih =>
    intro nfds st
    unfold dnsblc_wait
    obtain ⟨hsub, hmatch⟩ := complete_match r.callbacks st
    have hlift : (∃ cb ∈ r.callbacks, cb.status = ARES_SUCCESS ∧ cb.list ∈ st.pending) →
        ∃ cb ∈ roundCallbacks (r :: rs), cb.status = ARES_SUCCESS ∧ cb.list ∈ st.pending := by
      rintro ⟨cb, hcb, h1, h2⟩
      exact ⟨cb, List.mem_append_left _ hcb, h1, h2⟩
    simp only []
    split_ifs
    · exact ⟨fun _ h => h, Or.inl rfl⟩
    · exact ⟨fun _ h => h, Or.inl rfl⟩
    · exact ⟨fun _ h => h, Or.inl rfl⟩
    · exact ⟨hsub, hmatch.imp id hlift⟩
    · obtain ⟨hsub2, hmatch2⟩ := ih r.nfds (complete st r.callbacks)
      refine ⟨fun i hi => hsub i (hsub2 i hi), ?_⟩
      rcases hmatch2 with he | ⟨cb, hcb, h1, h2⟩
      · rcases hmatch with he1 | hex
        · exact Or.inl (by rw [he, he1])
        · exact Or.inr (hlift hex)
      · exact Or.inr ⟨cb, List.mem_append_right _ hcb, h1, hsub _ h2⟩

/-- The flag is set at `FINISH` only if the resolver completed a lookup that
`dnsblc` issued with the status `ARES_SUCCESS`. -/
theorem dnsblc_queries_match (M : Nat) (env : DnsEnv) (info : dns_check_info_t)
    (ctx : thread_ctx_t) (edict : edict_t) (result : chkresult_t) (qstr : CStr)
    (h : (dnsblc_queries M env info ctx edict result qstr).match_found ≠ 0) :
    ∃ cb ∈ offeredCompletions env (initiate M qstr 0 info.dnsbase),
      cb.status = ARES_SUCCESS ∧
      cb.list ∈ (initiate M qstr 0 info.dnsbase).map Prod.fst := by
  unfold dnsblc_queries at h
  simp only [dnsblc_finish] at h
  generalize hissued : initiate M qstr 0 info.dnsbase = issued at h ⊢
  generalize hst0 : (⟨0, 0, info.dnsbase, issued.map Prod.fst⟩ : DnsState) = st0 at h
  have hp0 : st0.pending = issued.map Prod.fst := by rw [← hst0]
  have hm0 : st0.match_found = 0 := by rw [← hst0]
  obtain ⟨hsub1, hmatch1⟩ := complete_match env.immediate st0
  generalize complete st0 env.immediate = st1 at h hsub1 hmatch1
  obtain ⟨hsub2, hmatch2⟩ := dnsblc_wait_match edict.timelimit env.rounds env.nfds0 st1
  generalize dnsblc_wait edict.timelimit env.rounds env.nfds0 st1 = st2 at h hsub2 hmatch2
  unfold ares_cancel at h
  obtain ⟨_, hmatch3⟩ := complete_match (st2.pending.map (fun i => ⟨i, env.cancel_status⟩)) st2
  unfold offeredCompletions
  rcases hmatch1 with he1 | ⟨cb, hcb, h1, h2⟩
  · rcases hmatch2 with he2 | ⟨cb, hcb, h1, h2⟩
    · rcases hmatch3 with he3 | ⟨cb, hcb, h1, h2⟩
      · rw [he3, he2, he1, hm0] at h
        exact absurd rfl h
      · have h2' : cb.list ∈ issued.map Prod.fst := by
          rw [← hp0]; exact hsub1 _ (hsub2 _ h2)
        obtain ⟨i, _, hi⟩ := List.mem_map.1 hcb
        obtain ⟨q, hq, hqi⟩ := List.mem_map.1 h2'
        refine ⟨⟨q.1, env.cancel_status⟩, ?_, ?_, ?_⟩
        · exact List.mem_append_right _ (List.mem_map.2 ⟨q, hq, rfl⟩)
        · rw [← h1, ← hi]
        · exact List.mem_map.2 ⟨q, hq, rfl⟩
    · exact ⟨cb, List.mem_append_left _ (List.mem_append_right _ hcb), h1, by
        rw [← hp0]; exact hsub1 _ h2⟩
  · exact ⟨cb, List.mem_append_left _ (List.mem_append_left _ hcb), h1, by rw [← hp0]; exact h2⟩

theorem dnsblc_queries_shape (M : Nat) (env : DnsEnv) (info : dns_check_info_t)
    (ctx : thread_ctx_t) (edict : edict_t) (result : chkresult_t) (qstr : CStr) :
    ∃ (issued : List (Nat × CStr)) (st : DnsState),
      dnsblc_queries M env info ctx edict result qstr
        = dnsblc_finish info.type ctx (lookupEvents issued) st
            (.valid result) (.valid edict.job) ∧
      (st.match_found ≠ 0 →
        ∃ cb ∈ offeredCompletions env issued,
          cb.status = ARES_SUCCESS ∧ cb.list ∈ issued.map Prod.fst) :=
  ⟨initiate M qstr 0 info.dnsbase, _, rfl,
    fun h => dnsblc_queries_match M env info ctx edict result qstr h⟩

theorem dnsblc_check_shape (M : Nat) (j0 : judgment_t) (env : DnsEnv)
    (info : dns_check_info_t) (ctx : thread_ctx_t) (edict : edict_t) :
    ∃ (issued : List (Nat × CStr)) (st : DnsState),
      dnsblc_check M j0 env info ctx edict
        = some (dnsblc_finish info.type ctx (lookupEvents issued) st
            (.valid (chkresult_zero j0)) (.valid edict.job)) ∧
      (st.match_found ≠ 0 →
        ∃ cb ∈ offeredCompletions env issued,
          cb.status = ARES_SUCCESS ∧ cb.list ∈ issued.map Prod.fst) ∧
      ((info.type = .TYPE_DNSBL ∨ info.type = .TYPE_DNSWL) →
        ¬ WellFormedQuad edict.job.client_address → issued = []) := by
  have hnone : ∀ issued : List (Nat × CStr),
      (⟨0, 0, info.dnsbase, []⟩ : DnsState).match_found ≠ 0 →
        ∃ cb ∈ offeredCompletions env issued,
          cb.status = ARES_SUCCESS ∧ cb.list ∈ issued.map Prod.fst :=
    fun _ h => absurd rfl h
  unfold dnsblc_check
  simp only []
  split_ifs with htype hlen hrhs hptr
  · exact ⟨[], ⟨0, 0, info.dnsbase, []⟩, rfl, hnone [], fun _ _ => rfl⟩
  · obtain ⟨ret, y, hrev, hbad⟩ := reverse_inet_addr_total env.le edict.job.client_address
    rw [hrev]
    simp only []
    split_ifs with hret
    · exact ⟨[], ⟨0, 0, info.dnsbase, []⟩, rfl, hnone [], fun _ _ => rfl⟩
    · obtain ⟨issued, st, hq, h0⟩ := dnsblc_queries_shape M env info ctx edict
        (chkresult_zero j0) y
      refine ⟨issued, st, by rw [hq], h0, ?_⟩
      intro _ hwf
      have := (hbad hwf).1
      omega
  · obtain ⟨issued, st, hq, h0⟩ := dnsblc_queries_shape M env info ctx edict
      (chkresult_zero j0) (edict.job.sender.drop (lastAt edict.job.sender
        (strlen edict.job.sender) + 1))
    exact ⟨issued, st, by rw [hq], h0, fun h => absurd h htype⟩
  · exact ⟨[], ⟨0, 0, info.dnsbase, []⟩, rfl, hnone [], fun _ _ => rfl⟩
  · exact ⟨[], ⟨0, 0, info.dnsbase, []⟩, rfl, hnone [], fun _ _ => rfl⟩

theorem dnsblc_shape (M : Nat) (j0 : judgment_t) (env : DnsEnv)
    (info : dns_check_info_t) (thread_ctx : thread_ctx_t) (edict : edict_t) :
    ∃ (ctx : thread_ctx_t) (issued : List (Nat × CStr)) (st : DnsState)
        (result : Ptr chkresult_t) (request : Ptr grey_tuple_t),
      dnsblc M j0 env info thread_ctx edict
        = some (dnsblc_finish info.type ctx (lookupEvents issued) st
            result request) ∧
      (st.match_found ≠ 0 →
        ∃ cb ∈ offeredCompletions env issued,
          cb.status = ARES_SUCCESS ∧ cb.list ∈ issued.map Prod.fst) ∧
      ((info.type = .TYPE_DNSBL ∨ info.type = .TYPE_DNSWL) →
        ¬ WellFormedQuad edict.job.client_address → issued = []) ∧
      ((thread_ctx.state.isSome ∨ env.ares_init.isSome) →
        result = .valid (chkresult_zero j0) ∧ request = .valid edict.job) := by
  unfold dnsblc
  cases hs : thread_ctx.state with
  | none =>
    cases hi : env.ares_init with
    | none =>
      exact ⟨thread_ctx, [], ⟨0, 0, info.dnsbase, []⟩, _, _, rfl, fun h => absurd rfl h,
        fun _ _ => rfl, by simp [hs, hi]⟩
    | some channel =>
      obtain ⟨issued, st, h, h0, hbad⟩ :=
        dnsblc_check_shape M j0 env info ⟨some channel, some .cleanup_dnsblc⟩ edict
      exact ⟨_, issued, st, _, _, h, h0, hbad, fun _ => ⟨rfl, rfl⟩⟩
  | some c =>
    obtain ⟨issued, st, h, h0, hbad⟩ := dnsblc_check_shape M j0 env info thread_ctx edict
    exact ⟨_, issued, st, _, _, h, h0, hbad, fun _ => ⟨rfl, rfl⟩⟩

theorem shape_no_lookup (env : DnsEnv) (st : DnsState)
    (h : st.match_found ≠ 0 →
      ∃ cb ∈ offeredCompletions env [], cb.status = ARES_SUCCESS ∧
        cb.list ∈ ([] : List (Nat × CStr)).map Prod.fst) :
    st.match_found = 0 := by
  by_contra hne
  obtain ⟨_, _, _, hl⟩ := h hne
  simp at hl

/-- C4: every call of `dnsblc` returns (the `assert` of `reverse_inet_addr`
never fails in it) and sends one result, whose judgment follows from the
value of `match_found` at `FINISH` and the check type alone: with the flag set
it is PASS for a DNSWL check and SUSPICIOUS for a DNSBL or RHSBL check, with
the flag clear it is UNDEFINED; and the flag is set only if the resolver
completed one of the lookups issued with the status `ARES_SUCCESS`. -/
theorem dnsblc_judgment (MAXQUERYSTRLEN : Nat) (j0 : judgment_t) (env : DnsEnv)
    (info : dns_check_info_t) (thread_ctx : thread_ctx_t) (edict : edict_t) :
    ∃ run r, dnsblc MAXQUERYSTRLEN j0 env info thread_ctx edict = some run ∧
      sentResults run.run.events = [r] ∧
      (0 < run.match_found →
        (info.type = .TYPE_DNSWL → r.deref.judgment = .J_PASS) ∧
        (info.type = .TYPE_DNSBL ∨ info.type = .TYPE_RHSBL →
          r.deref.judgment = .J_SUSPICIOUS)) ∧
      (¬ 0 < run.match_found → r.deref.judgment = .J_UNDEFINED) ∧
      (0 < run.match_found →
        ∃ cb ∈ offeredCompletions env (lookups run.run.events),
          cb.status = ARES_SUCCESS ∧ cb.list ∈ (lookups run.run.events).map Prod.fst) := by
  obtain ⟨ctx, issued, st, result, request, h, h0, _, _⟩ :=
    dnsblc_shape MAXQUERYSTRLEN j0 env info thread_ctx edict
  refine ⟨_, _, h, dnsblc_finish_sent _ _ _ _ _ _, ?_, ?_, ?_⟩
  · intro hm
    have hm' : st.match_found > 0 := hm
    rw [update_judgment_deref]
    constructor
    · intro ht
      simp [finishJudgment, hm', ht]
    · intro ht
      rcases ht with ht | ht <;> simp [finishJudgment, hm', ht]
  · intro hm
    have hm' : ¬ st.match_found > 0 := hm
    rw [update_judgment_deref]
    simp [finishJudgment, hm']
  · intro hm
    have hm' : st.match_found > 0 := hm
    rw [dnsblc_finish_lookups]
    exact h0 (by omega)

/-- C6: for a DNSBL or DNSWL check of a request whose client address is longer
than 15 characters or is not a well-formed dotted quad, `reverse_inet_addr`
returns -1 on that address, and `dnsblc` returns, issues no lookup and sends
one result, with judgment UNDEFINED. -/
theorem dnsblc_invalid_address (MAXQUERYSTRLEN : Nat) (j0 : judgment_t) (env : DnsEnv)
    (info : dns_check_info_t) (thread_ctx : thread_ctx_t) (edict : edict_t)
    (htype : info.type = .TYPE_DNSBL ∨ info.type = .TYPE_DNSWL)
    (hbad : 15 < strlen edict.job.client_address ∨
      ¬ WellFormedQuad edict.job.client_address) :
    reverse_inet_addr env.le edict.job.client_address
        = some (-1, edict.job.client_address) ∧
    ∃ run r, dnsblc MAXQUERYSTRLEN j0 env info thread_ctx edict = some run ∧
      lookups run.run.events = [] ∧
      sentResults run.run.events = [r] ∧
      r.deref.judgment = .J_UNDEFINED := by
  have hwf : ¬ WellFormedQuad edict.job.client_address := by
    rcases hbad with hlen | hwf
    · intro hwf
      have := wellFormedQuad_length _ hwf
      omega
    · exact hwf
  constructor
  · obtain ⟨ret, y, hrev, h⟩ := reverse_inet_addr_total env.le edict.job.client_address
    obtain ⟨h1, h2⟩ := h hwf
    rw [hrev, h1, h2]
  · obtain ⟨ctx, issued, st, result, request, h, h0, hnone, _⟩ :=
      dnsblc_shape MAXQUERYSTRLEN j0 env info thread_ctx edict
    have hi : issued = [] := hnone htype hwf
    refine ⟨_, _, h, ?_, dnsblc_finish_sent _ _ _ _ _ _, ?_⟩
    · rw [dnsblc_finish_lookups, hi]
    · rw [update_judgment_deref]
      have : st.match_found = 0 := by
        rw [hi] at h0
        exact shape_no_lookup env st h0
      simp [finishJudgment, this]

theorem wellFormedQuad_iff_inet_pton (x : CStr) :
    WellFormedQuad x ↔ (inet_pton x).isSome = true := by
  constructor
  · rintro ⟨a, b, c, d, ha, hb, hc, hd, rfl⟩
    rw [inet_pton_dottedQuad a b c d ha hb hc hd]
    rfl
  · intro h
    cases hp : inet_pton x with
    | none => rw [hp] at h; exact absurd h (by simp)
    | some addr =>
      obtain ⟨h0, h1, h2, h3, hx⟩ := inet_pton_sound x addr hp
      exact ⟨_, _, _, _, h0, h1, h2, h3, hx⟩

theorem dnsblc_invalid_address_witness :
    reverse_inet_addr true (cstr "1.2.3") = some (-1, cstr "1.2.3") ∧
    ∃ run r, dnsblc 256 .J_UNDEFINED matchEnv sampleCheck ⟨none, none⟩
        ⟨malformedRequest, 4000⟩ = some run ∧
      lookups run.run.events = [] ∧
      sentResults run.run.events = [r] ∧
      r.deref.judgment = .J_UNDEFINED :=
  dnsblc_invalid_address 256 .J_UNDEFINED matchEnv sampleCheck ⟨none, none⟩
    ⟨malformedRequest, 4000⟩ (Or.inl rfl)
    (Or.inr (fun h => absurd ((wellFormedQuad_iff_inet_pton _).1 h) (by decide)))

/-- The routine `spfc` sends one result, allocated and with `wait` clear, and
then releases the request, on every path. -/
theorem spfc_sends_once (j0 : judgment_t) (env : SpfEnv) (thread_ctx : thread_ctx_t)
    (edict : edict_t) :
    ∃ r, (spfc false j0 env thread_ctx edict).events
        = [.send_result (.valid r), .request_unlink (.valid edict.job)] ∧
      r.wait = false := by
  obtain ⟨ctx, h⟩ := spfc_eq j0 env thread_ctx edict
  rw [h]
  refine ⟨_, rfl, ?_⟩
  split_ifs
  · rw [spfc_switch_wait]
  · rfl

/-- The routine `dnsblc` sends one result, allocated and with `wait` clear,
and releases the request once after it, whenever the thread already has its
resolver channel or `ares_init` succeeds. -/
theorem dnsblc_sends_once (MAXQUERYSTRLEN : Nat) (j0 : judgment_t) (env : DnsEnv)
    (info : dns_check_info_t) (thread_ctx : thread_ctx_t) (edict : edict_t)
    (hinit : thread_ctx.state.isSome ∨ env.ares_init.isSome) :
    ∃ run r, dnsblc MAXQUERYSTRLEN j0 env info thread_ctx edict = some run ∧
      sentResults run.run.events = [.valid r] ∧ r.wait = false ∧
      unlinkedRequests run.run.events = [.valid edict.job] ∧
      run.run.events.getLast? = some (.request_unlink (.valid edict.job)) := by
  obtain ⟨ctx, issued, st, result, request, h, _, _, hv⟩ :=
    dnsblc_shape MAXQUERYSTRLEN j0 env info thread_ctx edict
  obtain ⟨hr, hq⟩ := hv hinit
  subst hr hq
  refine ⟨_, { chkresult_zero j0 with judgment := finishJudgment st.match_found info.type },
    h, ?_, rfl, dnsblc_finish_unlinked _ _ _ _ _ _, ?_⟩
  · rw [dnsblc_finish_sent]; rfl
  · simp [dnsblc_finish]

theorem dnsblc_sends_once_witness :
    ∃ run r, dnsblc 256 .J_UNDEFINED matchEnv sampleCheck ⟨none, none⟩
        ⟨sampleRequest, 4000⟩ = some run ∧
      sentResults run.run.events = [.valid r] ∧ r.wait = false ∧
      unlinkedRequests run.run.events = [.valid sampleRequest] ∧
      run.run.events.getLast? = some (.request_unlink (.valid sampleRequest)) :=
  dnsblc_sends_once 256 .J_UNDEFINED matchEnv sampleCheck ⟨none, none⟩
    ⟨sampleRequest, 4000⟩ (Or.inr rfl)

/-- C5, at the failing input: a thread that has no resolver channel yet calls
`dnsblc` and `ares_init` fails.  The routine jumps to `FINISH` before `result`
and `request` are assigned: what it hands to `send_result` is an unassigned
pointer (here the memory behind it reads as a result with `wait` set), and
what it hands to `request_unlink` is an unassigned pointer as well. -/
theorem dnsblc_ares_init_failure :
    dnsblc 256 .J_UNDEFINED initFailureEnv sampleCheck ⟨none, none⟩ ⟨sampleRequest, 4000⟩
      = some ⟨⟨0, ⟨none, none⟩,
          [.send_result (.wild ⟨.J_UNDEFINED, 7, none, true⟩),
           .request_unlink (.wild ⟨[], [], [], none⟩)]⟩,
          [⟨cstr "bl.example", 1, 5⟩], 0⟩ := by
  decide

theorem dnsblc_match_example :
    dnsblc 256 .J_UNDEFINED matchEnv sampleCheck ⟨none, none⟩ ⟨sampleRequest, 4000⟩
      = some ⟨⟨0, ⟨some 1, some .cleanup_dnsblc⟩,
          [.lookup 0 (cstr "1.0.0.10.bl.example"),
           .send_result (.valid ⟨.J_SUSPICIOUS, 0, none, false⟩),
           .request_unlink (.valid sampleRequest)]⟩,
          [⟨cstr "bl.example", 1, 5⟩], 1⟩ := by
  decide

theorem spfc_fail_example :
    spfc false .J_PASS spfFailEnv ⟨none, none⟩ ⟨sampleRequest, 4000⟩
      = ⟨0, ⟨some 5, some .cleanup_spfc⟩,
          [.send_result (.valid ⟨.J_BLOCK, 0, some (cstr "SPF policy violation"), false⟩),
           .request_unlink (.valid sampleRequest)]⟩ := by
  decide

theorem spfc_softfail_example :
    spfc false .J_PASS { spfFailEnv with response_result := .SPF_RESULT_SOFTFAIL }
        ⟨some 5, some .cleanup_spfc⟩ ⟨sampleRequest, 4000⟩
      = ⟨0, ⟨some 5, some .cleanup_spfc⟩,
          [.send_result (.valid ⟨.J_SUSPICIOUS, 1, none, false⟩),
           .request_unlink (.valid sampleRequest)]⟩ := by
  decide

/-! ## The reference count of an edict -/

theorem refStep_unlink_count (e e' : EdictMem) (h : refStep e .unlink = some e') :
    0 < e.count ∧ e'.count = e.count - 1 ∧ e'.resultmq = e.resultmq ∧
      e'.frees = (if e.count = 1 then e.frees + 1 else e.frees) := by
  unfold refStep edict_unlink_count at h
  by_cases hc : e.count > 0
  · simp only [hc, if_true] at h
    by_cases h1 : e.count - 1 = 0
    · have h1' : e.count = 1 := by omega
      simp only [h1, decide_True, if_true, Option.some.injEq] at h
      subst h
      simp [h1', hc]
    · have h1' : ¬ e.count = 1 := by omega
      simp only [h1, decide_False, Bool.false_eq_true, if_false, Option.some.injEq] at h
      subst h
      simp [h1', hc]
  · simp [hc] at h

theorem edictStep_count (s s' : EdictSys) (a : EdictAct) (h : edictStep s a = some s') :
    s'.edict.count - referents s' = s.edict.count - referents s + failedPuts [a] := by
  cases a with
  | submit pool put_ok =>
    simp only [edictStep] at h
    split_ifs at h with hf hp
    · simp only [Option.some.injEq] at h
      subst h
      subst hp
      simp only [submit_job, referents, failedPuts, List.length_cons]
      push_cast
      ring
    · simp only [Option.some.injEq] at h
      subst h
      have hp' : put_ok = false := by simpa using hp
      subst hp'
      simp only [submit_job, referents, failedPuts]
      push_cast
      ring
  | dequeue pool =>
    simp only [edictStep] at h
    split_ifs at h with hm
    simp only [Option.some.injEq] at h
    subst h
    have hl := List.length_erase_of_mem hm
    have hpos : 0 < s.queued.length := List.length_pos_of_mem hm
    simp only [referents, failedPuts, List.length_cons, hl]
    push_cast
    omega
  | finish pool =>
    simp only [edictStep] at h
    split_ifs at h with hm
    cases hr : refStep s.edict .unlink with
    | none => rw [hr] at h; exact absurd h (by simp)
    | some e' =>
      rw [hr] at h
      simp only [Option.some.injEq] at h
      subst h
      obtain ⟨_, hc, _, _⟩ := refStep_unlink_count _ _ hr
      have hl := List.length_erase_of_mem hm
      have hpos : 0 < s.processing.length := List.length_pos_of_mem hm
      simp only [referents, failedPuts, hl, hc]
      push_cast
      omega
  | release =>
    simp only [edictStep] at h
    split_ifs at h with hh
    cases hr : refStep s.edict .unlink with
    | none => rw [hr] at h; exact absurd h (by simp)
    | some e' =>
      rw [hr] at h
      simp only [Option.some.injEq] at h
      subst h
      obtain ⟨_, hc, _, _⟩ := refStep_unlink_count _ _ hr
      simp only [referents, failedPuts, hc, hh, if_true]
      simp only [Bool.false_eq_true, if_false]
      push_cast
      omega

theorem failedPuts_cons (a : EdictAct) (as : List EdictAct) :
    failedPuts (a :: as) = failedPuts [a] + failedPuts as := by
  cases a with
  | submit pool put_ok =>
    cases put_ok
    · simp only [failedPuts]; omega
    · simp [failedPuts]
  | dequeue pool => simp [failedPuts]
  | finish pool => simp [failedPuts]
  | release => simp [failedPuts]

theorem edictRun_count (acts : List EdictAct) :
    ∀ (s s' : EdictSys), edictRun s acts = some s' →
      s'.edict.count - referents s' = s.edict.count - referents s + failedPuts acts := by
  induction acts with
  | nil =>
    intro s s' h
    simp only [edictRun, Option.some.injEq] at h
    subst h
    simp [failedPuts]
  | cons a as ih =>
    intro s s' h
    simp only [edictRun] at h
    cases hs : edictStep s a with
    | none => rw [hs] at h; exact absurd h (by simp)
    | some s1 =>
      rw [hs] at h
      have h1 := edictStep_count s s1 a hs
      have h2 := ih s1 s' h
      rw [failedPuts_cons]
      push_cast
      omega

/-- C7, counterexample: after `edict_get` and one `submit_job` whose `put_msg`
fails, the edict is live, the orchestrator has its handle, no work queue
holds the edict and no worker processes it, and the count is 2. -/
theorem edict_count_after_failed_put :
    ∃ s, edictRun (edictInit false 3) [.submit 0 false] = some s ∧
      s.edict.frees = 0 ∧ s.held = true ∧ s.queued = [] ∧ s.processing = [] ∧
      s.edict.count = 2 ∧ referents s = 1 :=
  ⟨_, rfl, rfl, rfl, rfl, rfl, rfl, rfl⟩

/-- C7, amended: in every state reached from `edict_get` by `submit_job`
calls, workers taking the edict from a queue, workers ending with
`edict_unlink` and the orchestrator's `edict_unlink`, as long as no `put_msg`
of a `submit_job` has failed, the reference count equals 1 while the
orchestrator holds its handle, plus the queue entries holding the edict, plus
the workers processing it. -/
theorem edict_count_invariant (forget : Bool) (handle : Int) (acts : List EdictAct)
    (s : EdictSys) (h : edictRun (edictInit forget handle) acts = some s)
    (hput : failedPuts acts = 0) :
    s.edict.count = referents s := by
  have := edictRun_count acts _ s h
  simp only [edictInit, edict_get, referents, List.length_nil, hput] at this
  simp only [referents] at this ⊢
  push_cast at this
  omega

theorem edict_count_invariant_witness :
    ∃ s, edictRun (edictInit false 3)
        [.submit 0 true, .submit 1 true, .dequeue 0, .release, .finish 0] = some s ∧
      s.edict.count = 1 ∧ s.queued = [1] ∧ s.edict.count = referents s :=
  ⟨⟨⟨3, 1, 0⟩, false, [1], []⟩, rfl, rfl, rfl,
    edict_count_invariant false 3
      [.submit 0 true, .submit 1 true, .dequeue 0, .release, .finish 0]
      ⟨⟨3, 1, 0⟩, false, [1], []⟩ rfl rfl⟩

theorem refStep_submit (e : EdictMem) :
    refStep e .submit = some ⟨e.resultmq, e.count + 1, e.frees⟩ := rfl

/-- From a positive count, a sequence of calls before each of which the
count is positive runs without a failed `assert`; the count changes by the
submissions minus the releases; and either it ends positive with no `free`,
or it ends at 0 with one `free`, done by the last call, an `edict_unlink`
that found the count at 1. -/
theorem refRun_positive (ops : List RefOp) :
    ∀ e : EdictMem, 0 < e.count → PositiveBeforeEachCall e ops →
      ∃ e', refRun e ops = some e' ∧
        e'.count = e.count + ops.count .submit - ops.count .unlink ∧
        e'.resultmq = e.resultmq ∧
        ((0 < e'.count ∧ e'.frees = e.frees) ∨
         (e'.count = 0 ∧ e'.frees = e.frees + 1 ∧
           ∃ pre s, ops = pre ++ [.unlink] ∧ refRun e pre = some s ∧
             s.count = 1 ∧ s.frees = e.frees)) := by
  induction ops with
  | nil =>
    intro e he _
    exact ⟨e, rfl, by simp, rfl, Or.inl ⟨he, rfl⟩⟩
  | cons op rest ih =>
    intro e he hpos
    simp only [PositiveBeforeEachCall] at hpos
    obtain ⟨_, hstep⟩ := hpos
    cases hs : refStep e op with
    | none => rw [hs] at hstep; exact absurd hstep (by simp)
    | some e1 =>
      rw [hs] at hstep
      simp only [] at hstep
      cases op with
      | submit =>
        rw [refStep_submit] at hs
        simp only [Option.some.injEq] at hs
        subst hs
        obtain ⟨e', hrun, hcount, hmq, hfree⟩ := ih _ (by simp only []; omega) hstep
        refine ⟨e', by simp only [refRun, refStep_submit]; exact hrun, ?_, hmq, ?_⟩
        · simp only [] at hcount
          have c1 : List.count RefOp.submit (.submit :: rest) = rest.count .submit + 1 := by
            simp
          have c2 : List.count RefOp.unlink (.submit :: rest) = rest.count .unlink := by
            simp [List.count_cons]
          rw [c1, c2]
          push_cast
          omega
        · rcases hfree with hl | ⟨h0, hf, pre, s, hops, hpre, hs1, hsf⟩
          · exact Or.inl hl
          · refine Or.inr ⟨h0, hf, .submit :: pre, s, by rw [hops]; rfl, ?_, hs1, hsf⟩
            simp only [refRun, refStep_submit]
            exact hpre
      | unlink =>
        obtain ⟨_, hc, hmq1, hf1⟩ := refStep_unlink_count e e1 hs
        cases rest with
        | nil =>
          refine ⟨e1, by simp only [refRun, hs], ?_, hmq1, ?_⟩
          · have c1 : List.count RefOp.submit [.unlink] = 0 := by decide
            have c2 : List.count RefOp.unlink [.unlink] = 1 := by decide
            rw [c1, c2]
            push_cast
            omega
          · by_cases h1 : e.count = 1
            · rw [if_pos h1] at hf1
              exact Or.inr ⟨by omega, hf1, [], e, rfl, rfl, h1, rfl⟩
            · rw [if_neg h1] at hf1
              exact Or.inl ⟨by omega, hf1⟩
        | cons op2 rest2 =>
          have hpos1 : 0 < e1.count := by
            simp only [PositiveBeforeEachCall] at hstep
            exact hstep.1
          have h1 : ¬ e.count = 1 := by omega
          rw [if_neg h1] at hf1
          obtain ⟨e', hrun, hcount, hmq, hfree⟩ := ih e1 hpos1 hstep
          refine ⟨e', by simp only [refRun, hs]; exact hrun, ?_, by rw [hmq, hmq1], ?_⟩
          · have c1 : List.count RefOp.submit (.unlink :: op2 :: rest2)
                = List.count RefOp.submit (op2 :: rest2) := by
              simp [List.count_cons]
            have c2 : List.count RefOp.unlink (.unlink :: op2 :: rest2)
                = List.count RefOp.unlink (op2 :: rest2) + 1 := by
              simp
            rw [hcount, hc, c1, c2]
            push_cast
            omega
          · rcases hfree with ⟨hl, hfr⟩ | ⟨h0, hf, pre, s, hops, hpre, hs1, hsf⟩
            · exact Or.inl ⟨hl, by rw [hfr, hf1]⟩
            · refine Or.inr ⟨h0, by rw [hf, hf1], .unlink :: pre, s, by rw [hops]; rfl, ?_,
                hs1, by rw [hsf, hf1]⟩
              simp only [refRun, hs]
              exact hpre

/-- C8, counterexample: `edict_unlink`, `submit_job`, `edict_unlink` has one
submission and two releases, the count is positive (it is 1) before each
release, and yet `free(edict)` runs twice: in the first release and again in
the last. -/
theorem edict_destroyed_twice :
    List.count RefOp.submit [.unlink, .submit, .unlink] = 1 ∧
    List.count RefOp.unlink [.unlink, .submit, .unlink] = 1 + 1 ∧
    (edict_get true 0).count = 1 ∧
    PositiveBeforeEachUnlink (edict_get true 0) [.unlink, .submit, .unlink] ∧
    refRun (edict_get true 0) [.unlink] = some ⟨0, 0, 1⟩ ∧
    refRun (edict_get true 0) [.unlink, .submit] = some ⟨0, 1, 1⟩ ∧
    refRun (edict_get true 0) [.unlink, .submit, .unlink] = some ⟨0, 0, 2⟩ := by
  refine ⟨by decide, by decide, rfl, ?_, rfl, rfl, rfl⟩
  simp [PositiveBeforeEachUnlink, refStep, edict_unlink_count, edict_get, submit_job]

/-- C8, amended: an edict returned by `edict_get` has count 1, and for every
`n` and every ordering of `n` `submit_job` calls and `n + 1` `edict_unlink`
calls in which the count is positive before each call, `submit_job`
included, the last call is an `edict_unlink` that finds the count at 1, no
`free(edict)` has run before it, and it runs the one `free(edict)`. -/
theorem edict_destroyed_once (forget : Bool) (handle : Int) (n : Nat) (ops : List RefOp)
    (hsub : ops.count .submit = n) (hunl : ops.count .unlink = n + 1)
    (hpos : PositiveBeforeEachCall (edict_get forget handle) ops) :
    (edict_get forget handle).count = 1 ∧ (edict_get forget handle).frees = 0 ∧
    ∃ pre s e', ops = pre ++ [.unlink] ∧
      refRun (edict_get forget handle) pre = some s ∧ s.count = 1 ∧ s.frees = 0 ∧
      refRun (edict_get forget handle) ops = some e' ∧ e'.count = 0 ∧ e'.frees = 1 := by
  refine ⟨rfl, rfl, ?_⟩
  obtain ⟨e', hrun, hcount, _, hfree⟩ :=
    refRun_positive ops (edict_get forget handle) (by simp [edict_get]) hpos
  have h0 : e'.count = 0 := by
    rw [hcount, hsub, hunl]
    simp only [edict_get]
    push_cast
    omega
  rcases hfree with ⟨hl, _⟩ | ⟨_, hf, pre, s, hops, hpre, hs1, hsf⟩
  · omega
  · exact ⟨pre, s, e', hops, hpre, hs1, hsf, hrun, h0, hf⟩

theorem edict_destroyed_once_witness :
    (edict_get false 3).count = 1 ∧ (edict_get false 3).frees = 0 ∧
    ∃ pre s e', [RefOp.submit, .submit, .unlink, .unlink, .unlink] = pre ++ [.unlink] ∧
      refRun (edict_get false 3) pre = some s ∧ s.count = 1 ∧ s.frees = 0 ∧
      refRun (edict_get false 3) [.submit, .submit, .unlink, .unlink, .unlink] = some e' ∧
      e'.count = 0 ∧ e'.frees = 1 :=
  edict_destroyed_once false 3 2 [.submit, .submit, .unlink, .unlink, .unlink]
    (by decide) (by decide)
    (by simp [PositiveBeforeEachCall, refStep, edict_unlink_count, edict_get, submit_job])

/-! ## The teardown of an edict -/

theorem lookup_filter_ne (qs : MsgQueues) (handle : Int) :
    (qs.filter (fun q => q.1 ≠ handle)).lookup handle = none := by
  induction qs with
  | nil => rfl
  | cons q qs ih =>
    obtain ⟨k, v⟩ := q
    by_cases hk : k = handle
    · rw [List.filter_cons_of_neg (by simp [hk])]
      exact ih
    · have hne : (handle == k) = false := by
        simp only [beq_eq_false_iff_ne, ne_eq]
        exact fun h => hk h.symm
      rw [List.filter_cons_of_pos (by simp [hk])]
      simp only [List.lookup, hne]
      exact ih

theorem release_queue_empty (qs : MsgQueues) (handle : Int)
    (h : qs.lookup handle = some []) :
    release_queue qs handle = (0, qs.filter (fun q => q.1 ≠ handle)) := by
  simp [release_queue, h]

theorem release_queue_nonempty (qs : MsgQueues) (handle : Int) (m : chkresult_t)
    (ms : List chkresult_t) (h : qs.lookup handle = some (m :: ms)) :
    release_queue qs handle = (-1, qs) := by
  simp [release_queue, h]

theorem get_msg_timed_nonempty (qs : MsgQueues) (handle : Int) (m : chkresult_t)
    (ms : List chkresult_t) (h : qs.lookup handle = some (m :: ms)) :
    get_msg_timed qs handle
      = some (1, some m, (handle, ms) :: qs.filter (fun q => q.1 ≠ handle)) := by
  simp [get_msg_timed, h]

/-- With the queue of `handle` holding `pending`, the drain loop ends within
`pending.length + 1` passes: it frees the pending results, oldest first, and
then releases the queue. -/
theorem drainLoop_drains (handle : Int) (pending : List chkresult_t) :
    ∀ (fuel : Nat) (qs : MsgQueues) (done : List Teardown),
      qs.lookup handle = some pending → pending.length < fuel →
      ∃ qs', drainLoop fuel qs handle done
          = some (qs', done ++ pending.map Teardown.free_result ++ [.queue_released handle]) ∧
        qs'.lookup handle = none := by
  induction pending with
  | nil =>
    intro fuel qs done hq hfuel
    cases fuel with
    | zero => simp at hfuel
    | succ fuel =>
      refine ⟨qs.filter (fun q => q.1 ≠ handle), ?_, lookup_filter_ne qs handle⟩
      simp [drainLoop, release_queue_empty qs handle hq]
  | cons m ms ih =>
    intro fuel qs done hq hfuel
    cases fuel with
    | zero => simp at hfuel
    | succ fuel =>
      have hq' : ((handle, ms) :: qs.filter (fun q => q.1 ≠ handle)).lookup handle = some ms := by
        simp [List.lookup]
      obtain ⟨qs', hd, hl⟩ := ih fuel _ (done ++ [.free_result m]) hq'
        (by simp only [List.length_cons] at hfuel; omega)
      refine ⟨qs', ?_, hl⟩
      simp only [drainLoop, release_queue_nonempty qs handle m ms hq,
        get_msg_timed_nonempty qs handle m ms hq]
      simp only [show ((-1 : Int) < 0) = True from by simp, if_true,
        show ((1 : Int) > 0) = True from by simp, Option.map_some', Option.toList_some]
      rw [hd]
      simp

/-- C9, counterexample: `get_queue` returned the handle 0 to `edict_get`, two
results are pending in that queue, and the last reference is dropped:
whatever the fuel, `edict_unlink` frees the edict and nothing else; the queue
stays allocated with both results in it. -/
theorem edict_unlink_leaves_queue_zero :
    (edict_get false 0).resultmq = 0 ∧
    ∀ fuel : Nat,
      edict_unlink fuel [(0, [⟨.J_PASS, 0, none, false⟩, ⟨.J_BLOCK, 0, none, false⟩])]
          (edict_get false 0)
        = some ([(0, [⟨.J_PASS, 0, none, false⟩, ⟨.J_BLOCK, 0, none, false⟩])],
            ⟨0, 0, 1⟩, [.free_edict]) :=
  ⟨rfl, fun _ => rfl⟩

/-- C9, amended: for every edict whose result queue has a positive handle,
whatever results are pending in that queue when the last reference is
dropped, `edict_unlink` ends (`pending.length + 1` passes of the drain loop
are enough): it frees exactly the pending results, oldest first, then the
queue has been released, and then the edict is freed. -/
theorem edict_unlink_drains (fuel : Nat) (qs : MsgQueues) (handle : Int)
    (pending : List chkresult_t) (edict : EdictMem)
    (hmq : edict.resultmq = (edict_get false handle).resultmq) (hhandle : 0 < handle)
    (hlast : edict.count = 1) (hq : qs.lookup handle = some pending)
    (hfuel : pending.length < fuel) :
    ∃ qs', edict_unlink fuel qs edict
        = some (qs', ⟨handle, 0, edict.frees + 1⟩,
            pending.map Teardown.free_result ++ [.queue_released handle, .free_edict]) ∧
      qs'.lookup handle = none := by
  have hmq' : edict.resultmq = handle := by simpa [edict_get] using hmq
  obtain ⟨qs', hd, hl⟩ := drainLoop_drains handle pending fuel qs [] hq hfuel
  refine ⟨qs', ?_, hl⟩
  obtain ⟨mq, count, frees⟩ := edict
  simp only [] at hmq' hlast
  subst hmq' hlast
  simp only [edict_unlink, edict_unlink_count, edict_teardown]
  simp only [show ((1 : Int) > 0) = True from by simp, if_true,
    show ((1 : Int) - 1 = 0) = True from by simp, decide_True, hhandle, gt_iff_lt, hd]
  simp

theorem edict_unlink_drains_witness :
    ∃ qs', edict_unlink 3 [(1, []), (3, [⟨.J_PASS, 0, none, false⟩, ⟨.J_BLOCK, 0, none, false⟩])]
          (edict_get false 3)
        = some (qs', ⟨3, 0, (edict_get false 3).frees + 1⟩,
            [⟨.J_PASS, 0, none, false⟩, ⟨.J_BLOCK, 0, none, false⟩].map Teardown.free_result
              ++ [.queue_released 3, .free_edict]) ∧
      qs'.lookup 3 = none :=
  edict_unlink_drains 3 [(1, []), (3, [⟨.J_PASS, 0, none, false⟩, ⟨.J_BLOCK, 0, none, false⟩])]
    3 [⟨.J_PASS, 0, none, false⟩, ⟨.J_BLOCK, 0, none, false⟩] (edict_get false 3)
    rfl (by decide) rfl rfl (by decide)

/-! ## The worker threads of a pool -/

theorem worker_message_spec (ctx : pool_ctx_t) :
    (worker_message ctx).1 = ⟨ctx.count_thread, ctx.count_idle - 1⟩ ∧
      ((worker_message ctx).2 = true ↔ ctx.count_idle - 1 < 1) := by
  unfold worker_message
  simp only []
  split_ifs with h <;> simp [h]

theorem worker_timeout_spec (ctx : pool_ctx_t) :
    (worker_timeout ctx).1.count_idle = ctx.count_idle - 1 ∧
      (worker_timeout ctx).1.count_thread
        = (if ctx.count_idle - 1 > 1 then ctx.count_thread - 1 else ctx.count_thread) ∧
      ((worker_timeout ctx).2 = true ↔ ctx.count_idle - 1 > 1) := by
  unfold worker_timeout
  simp only []
  split_ifs with h <;> simp [h]

theorem poolStep_message (s : PoolSys) :
    poolStep s .message =
      if 0 < s.waiting then
        some ⟨(worker_message s.ctx).1,
          if (worker_message s.ctx).2 then s.created + 1 else s.created,
          s.entering, s.waiting - 1, s.working + 1⟩
      else none := rfl

theorem poolStep_timeout (s : PoolSys) :
    poolStep s .timeout =
      if 0 < s.waiting then
        some ⟨(worker_timeout s.ctx).1, s.created,
          if (worker_timeout s.ctx).2 then s.entering else s.entering + 1,
          s.waiting - 1, s.working⟩
      else none := rfl

/-- After any step, an idle thread is counted or a thread is on its way to
`count_idle++`, provided `count_idle` is the number of waiting threads before
the step; and it is that number after the step too. -/
theorem poolStep_idle (s s' : PoolSys) (a : PoolAct) (h : poolStep s a = some s')
    (hw : s.ctx.count_idle = s.waiting) :
    s'.ctx.count_idle = s'.waiting ∧
      (1 ≤ s'.ctx.count_idle ∨ 1 ≤ s'.created + s'.entering) := by
  cases a with
  | start =>
    simp only [poolStep] at h
    split_ifs at h with h0
    simp only [Option.some.injEq] at h
    subst h
    exact ⟨hw, Or.inr (by simp only []; omega)⟩
  | idle =>
    simp only [poolStep] at h
    split_ifs at h with h0
    simp only [Option.some.injEq] at h
    subst h
    simp only [worker_idle]
    push_cast
    exact ⟨by omega, Or.inl (by omega)⟩
  | message =>
    rw [poolStep_message] at h
    by_cases h0 : 0 < s.waiting
    · rw [if_pos h0] at h
      simp only [Option.some.injEq] at h
      subst h
      obtain ⟨hc, hsp⟩ := worker_message_spec s.ctx
      simp only [hc]
      refine ⟨by push_cast [Nat.cast_sub h0]; omega, ?_⟩
      by_cases hlt : s.ctx.count_idle - 1 < 1
      · rw [if_pos (hsp.2 hlt)]
        exact Or.inr (by omega)
      · exact Or.inl (by omega)
    · rw [if_neg h0] at h
      exact absurd h (by simp)
  | done =>
    simp only [poolStep] at h
    split_ifs at h with h0
    simp only [Option.some.injEq] at h
    subst h
    exact ⟨hw, Or.inr (by simp only []; omega)⟩
  | timeout =>
    rw [poolStep_timeout] at h
    by_cases h0 : 0 < s.waiting
    · rw [if_pos h0] at h
      simp only [Option.some.injEq] at h
      subst h
      obtain ⟨hc, _, hex⟩ := worker_timeout_spec s.ctx
      simp only [hc]
      refine ⟨by push_cast [Nat.cast_sub h0]; omega, ?_⟩
      by_cases hgt : s.ctx.count_idle - 1 > 1
      · exact Or.inl (by omega)
      · have : ¬ (worker_timeout s.ctx).2 = true := fun h => hgt (hex.1 h)
        rw [if_neg this]
        exact Or.inr (by omega)
    · rw [if_neg h0] at h
      exact absurd h (by simp)

theorem poolRun_idle (acts : List PoolAct) :
    ∀ s s' : PoolSys, poolRun s acts = some s' →
      s.ctx.count_idle = s.waiting →
      (1 ≤ s.ctx.count_idle ∨ 1 ≤ s.created + s.entering) →
      s'.ctx.count_idle = s'.waiting ∧
        (1 ≤ s'.ctx.count_idle ∨ 1 ≤ s'.created + s'.entering) := by
  induction acts with
  | nil =>
    intro s s' h hw hl
    simp only [poolRun, Option.some.injEq] at h
    subst h
    exact ⟨hw, hl⟩
  | cons a as ih =>
    intro s s' h hw _
    simp only [poolRun] at h
    cases hs : poolStep s a with
    | none => rw [hs] at h; exact absurd h (by simp)
    | some s1 =>
      rw [hs] at h
      obtain ⟨hw1, hl1⟩ := poolStep_idle s s1 a hs hw
      exact ih s1 s' h hw1 hl1

/-- C10, counterexample: whatever `max_threads` is, the pool reaches, from
the state in which the initial worker has registered, a state with
`count_idle < 1` and `count_thread` different from `max_threads`: after the
first message `count_idle` is 0 and `count_thread` is 1, and once the thread
created then has run `count_thread++`, `count_idle` is 0 and `count_thread`
is 2. -/
theorem pool_liveness_fails :
    ¬ ∃ max_threads : Int, ∀ (acts : List PoolAct) (s : PoolSys),
        poolRun create_thread_pool (registerInitial ++ acts) = some s →
        1 ≤ s.ctx.count_idle ∨ s.ctx.count_thread = max_threads := by
  rintro ⟨m, h⟩
  have h1 := h [.message] ⟨⟨1, 0⟩, 1, 0, 0, 1⟩ rfl
  have h2 := h [.message, .start] ⟨⟨2, 0⟩, 0, 1, 0, 1⟩ rfl
  simp only [] at h1 h2
  omega

/-- C10, amended: in every state a pool reaches from `create_thread_pool`,
each mutex-protected section of a worker being one step, `count_idle` is the
number of threads waiting for a message, and `count_idle >= 1` or some
thread is on its way to `count_idle++`: it has been created and has not yet
entered the loop, or it is at the top of the loop after a job or a
timeout. -/
theorem pool_liveness (acts : List PoolAct) (s : PoolSys)
    (h : poolRun create_thread_pool acts = some s) :
    s.ctx.count_idle = s.waiting ∧
      (1 ≤ s.ctx.count_idle ∨ 1 ≤ s.created + s.entering) :=
  poolRun_idle acts create_thread_pool s h rfl (Or.inr (by decide))

theorem pool_liveness_witness :
    ∃ s, poolRun create_thread_pool [.start, .idle, .message, .start, .done] = some s ∧
      s.ctx.count_idle = 0 ∧ s.ctx.count_thread = 2 ∧
      s.ctx.count_idle = s.waiting ∧
      (1 ≤ s.ctx.count_idle ∨ 1 ≤ s.created + s.entering) :=
  ⟨⟨⟨2, 0⟩, 0, 2, 0, 0⟩, rfl, rfl, rfl,
    pool_liveness [.start, .idle, .message, .start, .done] ⟨⟨2, 0⟩, 0, 2, 0, 0⟩ rfl⟩

/-! ## The counters of a pool -/

/-- Each step keeps `count_idle` equal to the number of waiting threads and
`count_thread` equal to the number of threads in the loop. -/
theorem poolStep_counters (s s' : PoolSys) (a : PoolAct) (h : poolStep s a = some s')
    (hi : s.ctx.count_idle = s.waiting)
    (ht : s.ctx.count_thread = s.entering + s.waiting + s.working) :
    s'.ctx.count_idle = s'.waiting ∧
      s'.ctx.count_thread = s'.entering + s'.waiting + s'.working := by
  cases a with
  | start =>
    simp only [poolStep] at h
    split_ifs at h with h0
    simp only [Option.some.injEq] at h
    subst h
    simp only [worker_start]
    push_cast
    exact ⟨hi, by omega⟩
  | idle =>
    simp only [poolStep] at h
    split_ifs at h with h0
    simp only [Option.some.injEq] at h
    subst h
    simp only [worker_idle]
    push_cast [Nat.cast_sub h0]
    exact ⟨by omega, by omega⟩
  | message =>
    rw [poolStep_message] at h
    by_cases h0 : 0 < s.waiting
    · rw [if_pos h0] at h
      simp only [Option.some.injEq] at h
      subst h
      obtain ⟨hc, _⟩ := worker_message_spec s.ctx
      simp only [hc]
      push_cast [Nat.cast_sub h0]
      exact ⟨by omega, by omega⟩
    · rw [if_neg h0] at h
      exact absurd h (by simp)
  | done =>
    simp only [poolStep] at h
    split_ifs at h with h0
    simp only [Option.some.injEq] at h
    subst h
    simp only []
    push_cast [Nat.cast_sub h0]
    exact ⟨hi, by omega⟩
  | timeout =>
    rw [poolStep_timeout] at h
    by_cases h0 : 0 < s.waiting
    · rw [if_pos h0] at h
      simp only [Option.some.injEq] at h
      subst h
      obtain ⟨hc, hth, hex⟩ := worker_timeout_spec s.ctx
      simp only [hc, hth]
      by_cases hgt : s.ctx.count_idle - 1 > 1
      · rw [if_pos hgt, if_pos (hex.2 hgt)]
        push_cast [Nat.cast_sub h0]
        exact ⟨by omega, by omega⟩
      · have : ¬ (worker_timeout s.ctx).2 = true := fun h => hgt (hex.1 h)
        rw [if_neg hgt, if_neg this]
        push_cast [Nat.cast_sub h0]
        exact ⟨by omega, by omega⟩
    · rw [if_neg h0] at h
      exact absurd h (by simp)

theorem poolRun_counters (acts : List PoolAct) :
    ∀ s s' : PoolSys, poolRun s acts = some s' →
      s.ctx.count_idle = s.waiting →
      s.ctx.count_thread = s.entering + s.waiting + s.working →
      s'.ctx.count_idle = s'.waiting ∧
        s'.ctx.count_thread = s'.entering + s'.waiting + s'.working := by
  induction acts with
  | nil =>
    intro s s' h hi ht
    simp only [poolRun, Option.some.injEq] at h
    subst h
    exact ⟨hi, ht⟩
  | cons a as ih =>
    intro s s' h hi ht
    simp only [poolRun] at h
    cases hs : poolStep s a with
    | none => rw [hs] at h; exact absurd h (by simp)
    | some s1 =>
      rw [hs] at h
      obtain ⟨hi1, ht1⟩ := poolStep_counters s s1 a hs hi ht
      exact ih s1 s' h hi1 ht1

/-- C16: in every state a pool reaches from `create_thread_pool`
(`count_thread = 0`, `count_idle = 0`), each mutex-protected section of a
worker being one step, whatever the interleaving of starts, messages,
timeouts and exits, `0 <= count_idle <= count_thread`. -/
theorem pool_counter_invariant (acts : List PoolAct) (s : PoolSys)
    (h : poolRun create_thread_pool acts = some s) :
    create_thread_pool.ctx.count_thread = 0 ∧ create_thread_pool.ctx.count_idle = 0 ∧
      0 ≤ s.ctx.count_idle ∧ s.ctx.count_idle ≤ s.ctx.count_thread := by
  obtain ⟨hi, ht⟩ := poolRun_counters acts create_thread_pool s h rfl rfl
  refine ⟨rfl, rfl, ?_, ?_⟩
  · rw [hi]; exact Int.natCast_nonneg _
  · rw [hi, ht]; omega

theorem pool_counter_invariant_witness :
    ∃ s, poolRun create_thread_pool
        [.start, .idle, .message, .start, .idle, .done, .idle, .message, .timeout] = some s ∧
      s.ctx.count_idle = 0 ∧ s.ctx.count_thread = 2 ∧
      create_thread_pool.ctx.count_thread = 0 ∧ create_thread_pool.ctx.count_idle = 0 ∧
      0 ≤ s.ctx.count_idle ∧ s.ctx.count_idle ≤ s.ctx.count_thread :=
  ⟨⟨⟨2, 0⟩, 0, 1, 0, 1⟩, rfl, rfl, rfl,
    pool_counter_invariant
      [.start, .idle, .message, .start, .idle, .done, .idle, .message, .timeout]
      ⟨⟨2, 0⟩, 0, 1, 0, 1⟩ rfl⟩

/-! ## Growth and shrinkage of a pool -/

theorem poolRun_growCycles (n : Nat) :
    ∀ k : Nat, poolRun (busyPool k) (growCycles n) = some (busyPool (k + n)) := by
  induction n with
  | zero => intro k; rfl
  | succ n ih =>
    intro k
    have hstep : poolRun (busyPool k) ([.message, .start, .idle] ++ growCycles n)
        = poolRun (busyPool (k + 1)) (growCycles n) := by
      simp [poolRun, poolStep, worker_message, worker_start, worker_idle, busyPool]
    rw [growCycles, hstep, ih (k + 1)]
    congr 2
    omega

theorem poolRun_grows (n : Nat) :
    poolRun create_thread_pool (registerInitial ++ growCycles n) = some (busyPool n) := by
  have h0 : poolRun create_thread_pool (registerInitial ++ growCycles n)
      = poolRun (busyPool 0) (growCycles n) := by
    simp [poolRun, poolStep, worker_start, worker_idle, busyPool, registerInitial,
      create_thread_pool]
  rw [h0, poolRun_growCycles n 0, Nat.zero_add]

/-- C14, counterexample: whatever `max_threads` is, some reachable state of the
pool has a larger `count_thread`, and in some reachable state a worker that
receives an edict creates a thread although `count_thread < max_threads` does
not hold: when no job ends, each message makes the idle worker create a
thread, so after `n` messages `count_thread` is `n + 1`. -/
theorem pool_count_thread_unbounded :
    (¬ ∃ max_threads : Int, ∀ (acts : List PoolAct) (s : PoolSys),
        poolRun create_thread_pool acts = some s → s.ctx.count_thread ≤ max_threads) ∧
    (¬ ∃ max_threads : Int, ∀ (acts : List PoolAct) (s : PoolSys),
        poolRun create_thread_pool acts = some s → 0 < s.waiting →
        ((worker_message s.ctx).2 = true ↔
          ((worker_message s.ctx).1.count_idle = 0 ∧ s.ctx.count_thread < max_threads))) := by
  constructor
  · rintro ⟨m, h⟩
    have := h _ _ (poolRun_grows m.toNat)
    simp only [busyPool] at this
    omega
  · rintro ⟨m, h⟩
    have := (h _ _ (poolRun_grows m.toNat) (by simp [busyPool])).1 (by simp [worker_message, busyPool])
    simp only [busyPool] at this
    omega

/-- C14, amended: in every state a pool reaches from `create_thread_pool`, a
worker that receives an edict decrements `count_idle` and creates a thread if
and only if `count_idle` is then 0, whatever `count_thread` is; no other
counter or thread changes, but that the worker is now working. -/
theorem worker_growth_rule (acts : List PoolAct) (s : PoolSys)
    (h : poolRun create_thread_pool acts = some s) (hw : 0 < s.waiting) :
    ∃ s', poolStep s .message = some s' ∧
      s'.ctx.count_idle = s.ctx.count_idle - 1 ∧
      s'.ctx.count_thread = s.ctx.count_thread ∧
      (s'.created = s.created + 1 ↔ s'.ctx.count_idle = 0) ∧
      (s'.created = s.created ↔ s'.ctx.count_idle ≠ 0) ∧
      s'.working = s.working + 1 ∧ s'.waiting + 1 = s.waiting ∧ s'.entering = s.entering := by
  obtain ⟨hi, _⟩ := poolRun_counters acts create_thread_pool s h rfl rfl
  obtain ⟨hc, hsp⟩ := worker_message_spec s.ctx
  rw [poolStep_message, if_pos hw]
  refine ⟨_, rfl, by simp only [hc], by simp only [hc], ?_, ?_, rfl, by simp only []; omega, rfl⟩
  · simp only [hc]
    by_cases hlt : s.ctx.count_idle - 1 < 1
    · rw [if_pos (hsp.2 hlt)]
      constructor
      · intro _; omega
      · intro _; rfl
    · have : ¬ (worker_message s.ctx).2 = true := fun h => hlt (hsp.1 h)
      rw [if_neg this]
      constructor
      · intro h; omega
      · intro h; omega
  · simp only [hc]
    by_cases hlt : s.ctx.count_idle - 1 < 1
    · rw [if_pos (hsp.2 hlt)]
      constructor
      · intro h; omega
      · intro h; omega
    · have : ¬ (worker_message s.ctx).2 = true := fun h => hlt (hsp.1 h)
      rw [if_neg this]
      constructor
      · intro _; omega
      · intro _; rfl

theorem worker_growth_rule_witness :
    ∃ s', poolStep ⟨⟨2, 1⟩, 0, 0, 1, 1⟩ .message = some s' ∧
      s'.ctx.count_idle = (1 : Int) - 1 ∧
      s'.ctx.count_thread = 2 ∧
      (s'.created = 0 + 1 ↔ s'.ctx.count_idle = 0) ∧
      (s'.created = 0 ↔ s'.ctx.count_idle ≠ 0) ∧
      s'.working = 1 + 1 ∧ s'.waiting + 1 = 1 ∧ s'.entering = 0 :=
  worker_growth_rule [.start, .idle, .message, .start, .idle] ⟨⟨2, 1⟩, 0, 0, 1, 1⟩ rfl
    (by decide)

/-- C13, counterexample: whatever `min_threads` is, in some reachable state a
worker whose wait times out does not follow the rule "terminate if and only
if `count_thread > min_threads` and `count_idle >= 1` after the decrement":
with three threads all idle it terminates (though `count_thread` is 3), and
with three threads of which two are idle it stays although one other idle
thread remains. -/
theorem worker_timeout_rule_fails :
    ¬ ∃ min_threads : Int, ∀ (acts : List PoolAct) (s : PoolSys),
        poolRun create_thread_pool acts = some s → 0 < s.waiting →
        ((worker_timeout s.ctx).2 = true ↔
          (s.ctx.count_thread > min_threads ∧ (worker_timeout s.ctx).1.count_idle ≥ 1)) := by
  rintro ⟨m, h⟩
  have hA := h [.start, .idle, .message, .start, .idle, .message, .start, .idle, .done, .idle,
    .done, .idle] ⟨⟨3, 3⟩, 0, 0, 3, 0⟩ rfl (by decide)
  have hB := h [.start, .idle, .message, .start, .idle, .message, .start, .idle, .done, .idle]
    ⟨⟨3, 2⟩, 0, 0, 2, 1⟩ rfl (by decide)
  simp only [worker_timeout] at hA hB
  norm_num at hA hB
  omega

/-- C13, amended: in every state of a pool with a waiting thread, a worker
whose wait times out decrements `count_idle`; then either it
decrements `count_thread` and terminates, which it does only if at least one
other idle thread remains (`count_idle >= 1` after the decrement) and always
if at least two remain, or it keeps `count_thread` and goes back to the top of
the loop.  There is no `min_threads`. -/
theorem worker_timeout_rule (s : PoolSys) (hw : 0 < s.waiting) :
    ∃ s', poolStep s .timeout = some s' ∧
      s'.ctx.count_idle = s.ctx.count_idle - 1 ∧
      ((s'.ctx.count_thread = s.ctx.count_thread - 1 ∧ s'.entering = s.entering ∧
          1 ≤ s'.ctx.count_idle) ∨
        (s'.ctx.count_thread = s.ctx.count_thread ∧ s'.entering = s.entering + 1)) ∧
      (2 ≤ s'.ctx.count_idle →
        s'.ctx.count_thread = s.ctx.count_thread - 1 ∧ s'.entering = s.entering) ∧
      s'.waiting + 1 = s.waiting ∧ s'.working = s.working ∧ s'.created = s.created := by
  obtain ⟨hc, hth, hex⟩ := worker_timeout_spec s.ctx
  rw [poolStep_timeout, if_pos hw]
  refine ⟨_, rfl, hc, ?_, ?_, by simp only []; omega, rfl, rfl⟩
  · simp only [hc, hth]
    by_cases hgt : s.ctx.count_idle - 1 > 1
    · rw [if_pos hgt, if_pos (hex.2 hgt)]
      exact Or.inl ⟨rfl, rfl, by omega⟩
    · have : ¬ (worker_timeout s.ctx).2 = true := fun h => hgt (hex.1 h)
      rw [if_neg hgt, if_neg this]
      exact Or.inr ⟨rfl, rfl⟩
  · simp only [hc, hth]
    intro h2
    have hgt : s.ctx.count_idle - 1 > 1 := by omega
    rw [if_pos hgt, if_pos (hex.2 hgt)]
    exact ⟨rfl, rfl⟩

theorem worker_timeout_rule_witness :
    ∃ s', poolStep ⟨⟨3, 3⟩, 0, 0, 3, 0⟩ .timeout = some s' ∧
      s'.ctx.count_idle = (3 : Int) - 1 ∧
      ((s'.ctx.count_thread = (3 : Int) - 1 ∧ s'.entering = 0 ∧ 1 ≤ s'.ctx.count_idle) ∨
        (s'.ctx.count_thread = 3 ∧ s'.entering = 0 + 1)) ∧
      (2 ≤ s'.ctx.count_idle → s'.ctx.count_thread = (3 : Int) - 1 ∧ s'.entering = 0) ∧
      s'.waiting + 1 = 3 ∧ s'.working = 0 ∧ s'.created = 0 :=
  worker_timeout_rule ⟨⟨3, 3⟩, 0, 0, 3, 0⟩ (by decide)

/-! ## The tolerance counters -/

theorem increment_eq_map (ET : Int) (lists : List dnsbl_t) :
    increment_dnsbl_tolerance_counters ET lists = lists.map (tolerate_dnsbl ET) := by
  induction lists with
  | nil => rfl
  | cons d ds ih => simp [increment_dnsbl_tolerance_counters, ih]

theorem tolerate_dnsbl_le (ET : Int) (d : dnsbl_t) (h : d.tolerancecounter ≤ ET) :
    (tolerate_dnsbl ET d).tolerancecounter ≤ ET := by
  unfold tolerate_dnsbl
  split_ifs with hlt
  · simp only []; omega
  · exact h

theorem decrementCounter_le (ET : Int) (i : Nat) :
    ∀ lists : List dnsbl_t, (∀ d ∈ lists, d.tolerancecounter ≤ ET) →
      ∀ d ∈ decrementCounter i lists, d.tolerancecounter ≤ ET := by
  induction i with
  | zero =>
    intro lists h d hd
    cases lists with
    | nil => simp [decrementCounter] at hd
    | cons x xs =>
      simp only [decrementCounter, List.mem_cons] at hd
      rcases hd with rfl | hd
      · have := h x (List.mem_cons_self _ _)
        simp only []; omega
      · exact h d (List.mem_cons_of_mem _ hd)
  | succ i ih =>
    intro lists h d hd
    cases lists with
    | nil => simp [decrementCounter] at hd
    | cons x xs =>
      simp only [decrementCounter, List.mem_cons] at hd
      rcases hd with rfl | hd
      · exact h d (List.mem_cons_self _ _)
      · exact ih xs (fun e he => h e (List.mem_cons_of_mem _ he)) d hd

theorem toleranceStep_le (ET : Int) (lists : List dnsbl_t) (op : ToleranceOp)
    (h : ∀ d ∈ lists, d.tolerancecounter ≤ ET) :
    ∀ d ∈ toleranceStep ET lists op, d.tolerancecounter ≤ ET := by
  cases op with
  | add name weight =>
    intro d hd
    simp only [toleranceStep, add_dnsbl, List.mem_cons] at hd
    rcases hd with rfl | hd
    · exact le_refl _
    · exact h d hd
  | replenish =>
    intro d hd
    simp only [toleranceStep, increment_eq_map, List.mem_map] at hd
    obtain ⟨e, he, rfl⟩ := hd
    exact tolerate_dnsbl_le ET e (h e he)
  | timeout i => exact decrementCounter_le ET i lists h

theorem toleranceRun_le (ET : Int) (ops : List ToleranceOp) :
    ∀ lists : List dnsbl_t, (∀ d ∈ lists, d.tolerancecounter ≤ ET) →
      ∀ d ∈ toleranceRun ET lists ops, d.tolerancecounter ≤ ET := by
  induction ops with
  | nil => intro lists h; exact h
  | cons op ops ih =>
    intro lists h
    exact ih _ (toleranceStep_le ET lists op h)

/-- The counter of a list after `k` replenishments of a counter `c` that
is not above the ceiling: `c + k`, but no more than the ceiling. -/
theorem replenishTimes_getElem (ET : Int) (k : Nat) :
    ∀ (lists : List dnsbl_t) (i : Nat) (d : dnsbl_t), lists[i]? = some d →
      d.tolerancecounter ≤ ET →
      ∃ e, (replenishTimes ET k lists)[i]? = some e ∧ e.name = d.name ∧
        e.tolerancecounter = min (d.tolerancecounter + k) ET := by
  induction k with
  | zero =>
    intro lists i d h hle
    exact ⟨d, h, rfl, by simp [hle]⟩
  | succ k ih =>
    intro lists i d h hle
    have h1 : (increment_dnsbl_tolerance_counters ET lists)[i]? = some (tolerate_dnsbl ET d) := by
      rw [increment_eq_map, List.getElem?_map, h]
      rfl
    obtain ⟨e, he, hn, hc⟩ := ih _ i _ h1 (tolerate_dnsbl_le ET d hle)
    refine ⟨e, he, ?_, ?_⟩
    · rw [hn]; unfold tolerate_dnsbl; split_ifs <;> rfl
    · rw [hc]
      unfold tolerate_dnsbl
      split_ifs with hlt
      · simp only []
        push_cast
        rw [show d.tolerancecounter + 1 + (k : Int) = d.tolerancecounter + ((k : Int) + 1) by ring]
      · have : d.tolerancecounter = ET := by omega
        push_cast
        rw [this]
        simp only [min_def]
        split_ifs <;> omega

/-- C11: a replenishment raises by one the counter of every list whose
counter is below `ERRORTOLERANCE` and leaves a counter at the ceiling as it
is; from no list at all, whatever the sequence of `add_dnsbl` calls,
replenishments and timeout decrements, no counter exceeds `ERRORTOLERANCE`;
and, the ceiling being positive, a list whose counter is `c <= 0` has
clearance after `k` replenishments in a row exactly when `k >= 1 - c`. -/
theorem tolerance_replenishment (ERRORTOLERANCE : Int) (hpos : 0 < ERRORTOLERANCE) :
    (∀ (lists : List dnsbl_t) (i : Nat) (d : dnsbl_t), lists[i]? = some d →
      (d.tolerancecounter < ERRORTOLERANCE →
        (increment_dnsbl_tolerance_counters ERRORTOLERANCE lists)[i]?
          = some { d with tolerancecounter := d.tolerancecounter + 1 }) ∧
      (d.tolerancecounter = ERRORTOLERANCE →
        (increment_dnsbl_tolerance_counters ERRORTOLERANCE lists)[i]? = some d)) ∧
    (∀ (name : CStr) (weight : Int) (lists : List dnsbl_t),
      (add_dnsbl ERRORTOLERANCE lists name weight)[0]?.map dnsbl_t.tolerancecounter
        = some ERRORTOLERANCE) ∧
    (∀ (ops : List ToleranceOp), ∀ d ∈ toleranceRun ERRORTOLERANCE [] ops,
      d.tolerancecounter ≤ ERRORTOLERANCE) ∧
    (∀ (lists : List dnsbl_t) (i : Nat) (d : dnsbl_t), lists[i]? = some d →
      d.tolerancecounter ≤ 0 →
      ∀ k : Nat, ∃ e, (replenishTimes ERRORTOLERANCE k lists)[i]? = some e ∧
        (query_clearance e = true ↔ 1 - d.tolerancecounter ≤ k)) := by
  refine ⟨?_, ?_, ?_, ?_⟩
  · intro lists i d h
    have h1 : (increment_dnsbl_tolerance_counters ERRORTOLERANCE lists)[i]?
        = some (tolerate_dnsbl ERRORTOLERANCE d) := by
      rw [increment_eq_map, List.getElem?_map, h]
      rfl
    rw [h1]
    constructor
    · intro hlt
      simp [tolerate_dnsbl, hlt]
    · intro heq
      simp [tolerate_dnsbl, heq]
  · intro name weight lists
    simp [add_dnsbl]
  · intro ops
    exact toleranceRun_le ERRORTOLERANCE ops [] (fun d hd => absurd hd (List.not_mem_nil d))
  · intro lists i d h hc k
    obtain ⟨e, he, _, hcount⟩ :=
      replenishTimes_getElem ERRORTOLERANCE k lists i d h (by omega)
    refine ⟨e, he, ?_⟩
    unfold query_clearance
    rw [hcount]
    simp only [min_def]
    split_ifs <;> constructor <;> intro _ <;> first | omega | rfl | simp_all

theorem tolerance_replenishment_witness :
    (0 : Int) < 5 ∧
    ∃ e, (replenishTimes 5 3 [⟨cstr "bl.example", 0, -2⟩])[0]? = some e ∧
      (query_clearance e = true ↔ 1 - (-2 : Int) ≤ ((3 : Nat) : Int)) :=
  ⟨by decide,
    (tolerance_replenishment 5 (by decide)).2.2.2 [⟨cstr "bl.example", 0, -2⟩] 0
      ⟨cstr "bl.example", 0, -2⟩ rfl (by decide) 3⟩

theorem tolerance_example :
    toleranceRun 5 []
        [.add (cstr "bl.example") 1, .timeout 0, .timeout 0, .timeout 0, .timeout 0,
          .timeout 0, .timeout 0, .timeout 0]
      = [⟨cstr "bl.example", 0, -2⟩] ∧
    (replenishTimes 5 2 [⟨cstr "bl.example", 0, -2⟩]).map query_clearance = [false] ∧
    (replenishTimes 5 3 [⟨cstr "bl.example", 0, -2⟩]).map query_clearance = [true] ∧
    (replenishTimes 5 20 [⟨cstr "bl.example", 0, -2⟩]).map dnsbl_t.tolerancecounter = [5] := by
  decide

/-! ## The `filter_bits` setting -/

theorem atoiDigits_showNatAux (fuel : Nat) :
    ∀ (n : Nat) (acc : CStr), n < fuel →
      atoiDigits 0 (showNatAux fuel n acc) = atoiDigits n acc := by
  induction fuel with
  | zero => intro n acc h; omega
  | succ fuel ih =>
    intro n acc h
    unfold showNatAux
    split_ifs with h10
    · have hd : isDigit (48 + n) = true := isDigit_add n h10
      simp [atoiDigits, hd]
    · rw [ih (n / 10) _ (by omega)]
      have hd : isDigit (48 + n % 10) = true := isDigit_add _ (by omega)
      simp only [atoiDigits, hd, if_true, Nat.add_sub_cancel_left]
      congr 1
      omega

theorem showNatAux_head (fuel : Nat) :
    ∀ (n : Nat) (acc : CStr), n < fuel →
      ∃ d rest, showNatAux fuel n acc = d :: rest ∧ isDigit d = true := by
  induction fuel with
  | zero => intro n acc h; omega
  | succ fuel ih =>
    intro n acc h
    unfold showNatAux
    split_ifs with h10
    · exact ⟨48 + n, acc, rfl, isDigit_add n h10⟩
    · exact ih (n / 10) _ (by omega)

theorem atoi_showNat (n : Nat) : atoi (showNat n) = n := by
  obtain ⟨d, rest, hshow, hd⟩ := showNatAux_head (n + 1) n [] (by omega)
  have hval := atoiDigits_showNatAux (n + 1) n [] (by omega)
  unfold showNat at *
  rw [hshow] at hval
  have hd' := hd
  simp only [isDigit, Bool.and_eq_true, decide_eq_true_eq] at hd'
  have hsp : isSpace d = false := by
    simp only [isSpace, Bool.or_eq_false_iff, Bool.and_eq_false_iff, decide_eq_false_iff_not]
    omega
  have h45 : d ≠ 45 := by omega
  have h43 : d ≠ 43 := by omega
  unfold atoi
  rw [hshow]
  simp only [skipSpace, hsp, Bool.false_eq_true, if_false]
  split
  · rename_i heq; simp only [List.cons.injEq] at heq; exact absurd heq.1 h45
  · rename_i heq; simp only [List.cons.injEq] at heq; exact absurd heq.1 h43
  · rw [hval]; rfl

theorem atoi_showInt (v : Int) : atoi (showInt v) = v := by
  unfold showInt
  split_ifs with hneg
  · have hval := atoiDigits_showNatAux ((-v).toNat + 1) (-v).toNat [] (by omega)
    unfold atoi
    have hsp : isSpace 45 = false := by decide
    simp only [skipSpace, hsp, Bool.false_eq_true, if_false]
    unfold showNat
    rw [hval]
    simp only [atoiDigits]
    omega
  · rw [atoi_showNat]
    omega

theorem convert_of_int (t : CIntType) (ht : 32 ≤ t.bits) (v : Int)
    (hlo : -2 ^ 31 ≤ v) (hhi : v < 2 ^ 31) :
    (0 ≤ v → t.convert v = v) ∧ (v < 0 → t.convert v < 0 ∨ 32 < t.convert v) := by
  obtain ⟨k, hk⟩ : ∃ k, t.bits = 32 + k := ⟨t.bits - 32, by omega⟩
  have hpow : (2 : Int) ^ 32 ≤ 2 ^ t.bits := by
    rw [hk]; exact pow_le_pow_right₀ (by norm_num) (by omega)
  have hpow1 : (2 : Int) ^ 31 ≤ 2 ^ (t.bits - 1) := by
    exact pow_le_pow_right₀ (by norm_num) (by omega)
  have hdouble : (2 : Int) ^ t.bits = 2 * 2 ^ (t.bits - 1) := by
    rw [← pow_succ']
    congr 1
    omega
  norm_num at hlo hhi hpow hpow1
  unfold CIntType.convert
  cases t.isSigned
  · simp only [Bool.false_eq_true, if_false]
    constructor
    · intro h0
      exact Int.emod_eq_of_lt h0 (by omega)
    · intro hneg
      right
      have : v % 2 ^ t.bits = v + 2 ^ t.bits := by
        rw [← Int.add_emod_self]
        exact Int.emod_eq_of_lt (by omega) (by omega)
      rw [this]
      omega
  · simp only [if_true]
    have : (v + 2 ^ (t.bits - 1)) % 2 ^ t.bits = v + 2 ^ (t.bits - 1) :=
      Int.emod_eq_of_lt (by omega) (by omega)
    rw [this]
    constructor
    · intro _; omega
    · intro hneg; left; omega

/-- C12: with `bitindex_t` an integer type of at least 32 bits, for every
value `v` of an `int` written as the value of the `filter_bits` key,
`configure_grossd` shuts the daemon down with exit status 1 if and only if
`v < 5` or `v > 32`, and otherwise goes on with `filter_size = v`; when the
key is absent it goes on with the default, `filter_size = 22`. -/
theorem configure_grossd_filter_bits_range (bitindex_t : CIntType)
    (hbits : 32 ≤ bitindex_t.bits) (config : configlist_t) :
    (∀ v : Int, -2 ^ 31 ≤ v → v < 2 ^ 31 →
      config.lookup (cstr "filter_bits") = some (showInt v) →
      (configure_grossd_filter_bits bitindex_t config = .shutdown 1 ↔ (v < 5 ∨ v > 32)) ∧
      (¬ (v < 5 ∨ v > 32) →
        configure_grossd_filter_bits bitindex_t config = .configured v)) ∧
    (config.lookup (cstr "filter_bits") = none →
      configure_grossd_filter_bits bitindex_t config = .configured 22) := by
  constructor
  · intro v hlo hhi hkey
    obtain ⟨hnn, hneg⟩ := convert_of_int bitindex_t hbits v hlo hhi
    have hval : bitindex_t.convert (atoi (dconf config (cstr "filter_bits") (cstr "22")))
        = bitindex_t.convert v := by
      simp only [dconf, hkey, atoi_showInt]
    unfold configure_grossd_filter_bits
    simp only [hval]
    by_cases h0 : 0 ≤ v
    · rw [hnn h0]
      by_cases hr : v < 5 ∨ v > 32
      · simp [hr]
      · simp [hr]
    · have hvneg : v < 0 := by omega
      have hc := hneg hvneg
      have hr : v < 5 ∨ v > 32 := Or.inl (by omega)
      have hc' : bitindex_t.convert v < 5 ∨ bitindex_t.convert v > 32 := by
        rcases hc with h | h
        · exact Or.inl (by omega)
        · exact Or.inr h
      simp [hr, hc']
  · intro hkey
    obtain ⟨hnn, _⟩ := convert_of_int bitindex_t hbits 22 (by norm_num) (by norm_num)
    have h22 : atoi (cstr "22") = 22 := by decide
    unfold configure_grossd_filter_bits
    simp only [dconf, hkey, h22, hnn (by norm_num)]
    simp

theorem configure_grossd_filter_bits_range_witness :
    (configure_grossd_filter_bits ⟨false, 32⟩ [(cstr "host", cstr "10.0.0.1"),
        (cstr "filter_bits", cstr "33")] = .shutdown 1 ↔ ((33 : Int) < 5 ∨ (33 : Int) > 32)) ∧
      (¬ ((33 : Int) < 5 ∨ (33 : Int) > 32) →
        configure_grossd_filter_bits ⟨false, 32⟩ [(cstr "host", cstr "10.0.0.1"),
          (cstr "filter_bits", cstr "33")] = .configured 33) :=
  (configure_grossd_filter_bits_range ⟨false, 32⟩ (by decide)
    [(cstr "host", cstr "10.0.0.1"), (cstr "filter_bits", cstr "33")]).1 33
    (by decide) (by decide) (by decide)

theorem configure_grossd_examples :
    configure_grossd_filter_bits ⟨false, 32⟩ [(cstr "filter_bits", cstr "4")] = .shutdown 1 ∧
    configure_grossd_filter_bits ⟨false, 32⟩ [(cstr "filter_bits", cstr "5")] = .configured 5 ∧
    configure_grossd_filter_bits ⟨false, 32⟩ [(cstr "filter_bits", cstr "32")]
      = .configured 32 ∧
    configure_grossd_filter_bits ⟨false, 32⟩ [(cstr "filter_bits", cstr "-7")] = .shutdown 1 ∧
    configure_grossd_filter_bits ⟨true, 32⟩ [(cstr "filter_bits", cstr "-7")] = .shutdown 1 ∧
    configure_grossd_filter_bits ⟨false, 32⟩ [(cstr "port", cstr "1111")] = .configured 22 := by
  decide

/-! ## The RHSBL check -/

theorem initiate_eq (M : Nat) (qstr : CStr) :
    ∀ (i : Nat) (dnsbase : List dnsbl_t),
      initiate M qstr i dnsbase
        = ((dnsbase.enumFrom i).filter (fun p => query_clearance p.2)).map
            (fun p => (p.1, queryString M qstr p.2.name)) := by
  intro i dnsbase
  induction dnsbase generalizing i with
  | nil => rfl
  | cons d ds ih =>
    simp only [initiate, List.enumFrom_cons]
    by_cases hc : query_clearance d = true
    · rw [if_pos hc, List.filter_cons_of_pos (by simpa using hc), List.map_cons, ih]
    · rw [if_neg hc, List.filter_cons_of_neg (by simpa using hc), ih]

theorem getD_no_at (l : CStr) (h : 64 ∉ l) : ∀ j : Nat, l.getD j 0 ≠ 64 := by
  induction l with
  | nil => intro j; simp
  | cons x xs ih =>
    intro j
    simp only [List.mem_cons, not_or] at h
    cases j with
    | zero => simpa using fun hx => h.1 hx.symm
    | succ j => simpa using ih h.2 j

theorem getD_append_at (x : Nat) (label : CStr) :
    ∀ pre : CStr, (pre ++ x :: label).getD pre.length 0 = x := by
  intro pre
  induction pre with
  | nil => rfl
  | cons p ps ih => simpa using ih

theorem getD_append_after (x : Nat) (label : CStr) (j : Nat) :
    ∀ pre : CStr, (pre ++ x :: label).getD (pre.length + 1 + j) 0 = label.getD j 0 := by
  intro pre
  induction pre with
  | nil => simp [Nat.add_comm]
  | cons p ps ih =>
    have : (p :: ps).length + 1 + j = (ps.length + 1 + j) + 1 := by simp; omega
    rw [this]
    simpa using ih

/-- The scan goes down over positions that hold no `@`. -/
theorem lastAt_skip (sender : CStr) (i : Nat) :
    ∀ k : Nat, (∀ j, j < k → sender.getD (i + 1 + j) 0 ≠ 64) →
      lastAt sender (i + k) = lastAt sender i := by
  intro k
  induction k with
  | zero => intro _; rfl
  | succ k ih =>
    intro h
    have hk : sender.getD (i + k + 1) 0 ≠ 64 := by
      have := h k (by omega)
      rwa [show i + 1 + k = i + k + 1 by omega] at this
    rw [show i + (k + 1) = (i + k) + 1 by omega]
    simp only [lastAt, hk, ne_eq, not_false_eq_true, if_true]
    exact ih (fun j hj => h j (by omega))

/-- The scan of `dnsblc` stops at the last `@`, and at 0 if that is where the
last `@` is. -/
theorem lastAt_last (pre label : CStr) (h : 64 ∉ label) :
    lastAt (pre ++ 64 :: label) (strlen (pre ++ 64 :: label)) = pre.length := by
  have hlen : strlen (pre ++ 64 :: label) = pre.length + (label.length + 1) := by
    simp [strlen]
  rw [hlen, lastAt_skip (pre ++ 64 :: label) pre.length (label.length + 1)
    (fun j _ => by rw [getD_append_after]; exact getD_no_at label h j)]
  cases hp : pre.length with
  | zero => rfl
  | succ m =>
    have := getD_append_at 64 label pre
    rw [hp] at this
    simp only [lastAt, this, ne_eq, not_true_eq_false, if_false]

theorem lastAt_none (sender : CStr) (h : 64 ∉ sender) :
    lastAt sender (strlen sender) = 0 := by
  have := lastAt_skip sender 0 (strlen sender) (fun j _ => getD_no_at sender h _)
  rw [Nat.zero_add] at this
  rw [this]
  rfl

theorem drop_label (pre label : CStr) :
    (pre ++ 64 :: label).drop (pre.length + 1) = label := by
  induction pre with
  | nil => rfl
  | cons p ps ih => simp [ih]

theorem dnsblc_queries_lookups (M : Nat) (env : DnsEnv) (info : dns_check_info_t)
    (ctx : thread_ctx_t) (edict : edict_t) (result : chkresult_t) (qstr : CStr) :
    lookups (dnsblc_queries M env info ctx edict result qstr).run.events
      = clearedQueries M qstr info.dnsbase := by
  unfold dnsblc_queries
  simp only []
  rw [dnsblc_finish_lookups, initiate_eq]
  rfl

theorem dnsblc_check_rhsbl (M : Nat) (j0 : judgment_t) (env : DnsEnv)
    (info : dns_check_info_t) (ctx : thread_ctx_t) (edict : edict_t)
    (htype : info.type = .TYPE_RHSBL) :
    dnsblc_check M j0 env info ctx edict
      = if lastAt edict.job.sender (strlen edict.job.sender) > 0 then
          some (dnsblc_queries M env info ctx edict (chkresult_zero j0)
            (edict.job.sender.drop (lastAt edict.job.sender (strlen edict.job.sender) + 1)))
        else
          some (dnsblc_finish info.type ctx [] ⟨0, 0, info.dnsbase, []⟩
            (.valid (chkresult_zero j0)) (.valid edict.job)) := by
  unfold dnsblc_check
  simp [htype]

theorem dnsblc_initialised (M : Nat) (j0 : judgment_t) (env : DnsEnv)
    (info : dns_check_info_t) (thread_ctx : thread_ctx_t) (edict : edict_t)
    (hinit : thread_ctx.state.isSome ∨ env.ares_init.isSome) :
    ∃ ctx, dnsblc M j0 env info thread_ctx edict = dnsblc_check M j0 env info ctx edict := by
  unfold dnsblc
  cases hs : thread_ctx.state with
  | none =>
    cases hi : env.ares_init with
    | none => simp [hs, hi] at hinit
    | some channel => exact ⟨_, rfl⟩
  | some c => exact ⟨_, rfl⟩

theorem queryString_fits (M : Nat) (label name : CStr)
    (h : label.length + 1 + name.length < M) :
    queryString M label name = label ++ 46 :: name := by
  unfold queryString
  apply List.take_of_length_le
  simp only [List.length_append, List.length_cons]
  omega

theorem queryString_length (M : Nat) (label name : CStr) :
    (queryString M label name).length ≤ M - 1 := by
  unfold queryString
  simp only [List.length_take]
  omega

/-- C15, counterexample: three calls of the RHSBL check in which the sender
has an `@` and the lookup `<label>.<list>` is not made.  With the only `@` at
position 0 (`@example.com`) the check is skipped, whatever `MAXQUERYSTRLEN`
is: no lookup, judgment UNDEFINED.  With a buffer of 16 bytes the lookup for
`a@example.com` against `rhsbl.example` is cut to `example.com.rhs`, and for
no buffer size does every query fit.  And when `ares_init` fails the check is
skipped for `a@x.example`. -/
theorem rhsbl_label_fails :
    (∀ M : Nat, ∃ run, dnsblc M .J_UNDEFINED quietEnv rhsblCheck ⟨none, none⟩
        ⟨atZeroRequest, 4000⟩ = some run ∧
      run.run.events = [.send_result (.valid ⟨.J_UNDEFINED, 0, none, false⟩),
        .request_unlink (.valid atZeroRequest)]) ∧
    (∃ run, dnsblc 16 .J_UNDEFINED quietEnv rhsblCheck ⟨none, none⟩
        ⟨⟨cstr "a@example.com", cstr "b@y.example", cstr "10.0.0.1", none⟩, 4000⟩ = some run ∧
      lookups run.run.events = [(0, cstr "example.com.rhs")]) ∧
    (∀ M : Nat, queryString M (List.replicate M 97) (cstr "rhsbl.example")
      ≠ List.replicate M 97 ++ 46 :: cstr "rhsbl.example") ∧
    (∃ run, dnsblc 256 .J_UNDEFINED initFailureEnv rhsblCheck ⟨none, none⟩
        ⟨sampleRequest, 4000⟩ = some run ∧
      lookups run.run.events = []) := by
  refine ⟨fun M => ⟨_, rfl, rfl⟩, ⟨_, rfl, by decide⟩, ?_, ⟨_, rfl, by decide⟩⟩
  intro M h
  have h1 := queryString_length M (List.replicate M 97) (cstr "rhsbl.example")
  rw [h] at h1
  simp only [List.length_append, List.length_replicate, List.length_cons] at h1
  omega

/-- C15, amended: in an RHSBL check whose thread has its resolver channel or
gets it from `ares_init`, for every sender with an `@` at a position other
than 0, the label is the text after the last `@`, and `dnsblc` issues, for
each list with clearance and in order, the lookup of `<label>.<list>` as
`snprintf` leaves it in the buffer of `MAXQUERYSTRLEN` bytes, which is
`<label>.<list>` itself when that is shorter than `MAXQUERYSTRLEN`; for a
sender with no `@` the check is skipped: no lookup, judgment UNDEFINED. -/
theorem rhsbl_query_label (MAXQUERYSTRLEN : Nat) (j0 : judgment_t) (env : DnsEnv)
    (info : dns_check_info_t) (thread_ctx : thread_ctx_t) (edict : edict_t)
    (htype : info.type = .TYPE_RHSBL)
    (hinit : thread_ctx.state.isSome ∨ env.ares_init.isSome) :
    (∀ pre label : CStr, edict.job.sender = pre ++ 64 :: label → 64 ∉ label → pre ≠ [] →
      ∃ run, dnsblc MAXQUERYSTRLEN j0 env info thread_ctx edict = some run ∧
        lookups run.run.events = clearedQueries MAXQUERYSTRLEN label info.dnsbase ∧
        ∀ name : CStr, label.length + 1 + name.length < MAXQUERYSTRLEN →
          queryString MAXQUERYSTRLEN label name = label ++ 46 :: name) ∧
    (64 ∉ edict.job.sender →
      ∃ run r, dnsblc MAXQUERYSTRLEN j0 env info thread_ctx edict = some run ∧
        lookups run.run.events = [] ∧ sentResults run.run.events = [r] ∧
        r.deref.judgment = .J_UNDEFINED) := by
  obtain ⟨ctx, hctx⟩ := dnsblc_initialised MAXQUERYSTRLEN j0 env info thread_ctx edict hinit
  rw [hctx, dnsblc_check_rhsbl MAXQUERYSTRLEN j0 env info ctx edict htype]
  constructor
  · intro pre label hsender hlabel hpre
    have hlast := lastAt_last pre label hlabel
    rw [← hsender] at hlast
    have hpos : lastAt edict.job.sender (strlen edict.job.sender) > 0 := by
      rw [hlast]
      exact List.length_pos.2 hpre
    rw [if_pos hpos, hlast, hsender, drop_label]
    exact ⟨_, rfl, dnsblc_queries_lookups _ _ _ _ _ _ _,
      fun name hfit => queryString_fits _ _ _ hfit⟩
  · intro hno
    have hlast := lastAt_none edict.job.sender hno
    rw [if_neg (by omega)]
    refine ⟨_, (Ptr.valid (chkresult_zero j0)).update
      (fun r => { r with judgment := finishJudgment 0 info.type }), rfl, ?_, ?_, ?_⟩
    · exact dnsblc_finish_lookups _ _ [] _ _ _
    · exact dnsblc_finish_sent _ _ [] _ _ _
    · rw [update_judgment_deref]
      rfl

theorem rhsbl_query_label_witness :
    ∃ run, dnsblc 256 .J_UNDEFINED quietEnv rhsblCheck ⟨none, none⟩
        ⟨sampleRequest, 4000⟩ = some run ∧
      lookups run.run.events = clearedQueries 256 (cstr "x.example") rhsblCheck.dnsbase ∧
      ∀ name : CStr, (cstr "x.example").length + 1 + name.length < 256 →
        queryString 256 (cstr "x.example") name = cstr "x.example" ++ 46 :: name :=
  (rhsbl_query_label 256 .J_UNDEFINED quietEnv rhsblCheck ⟨none, none⟩ ⟨sampleRequest, 4000⟩
    rfl (Or.inr rfl)).1 (cstr "a") (cstr "x.example") rfl (by decide) (by decide)

theorem rhsbl_example :
    dnsblc 256 .J_UNDEFINED quietEnv rhsblCheck ⟨none, none⟩ ⟨sampleRequest, 4000⟩
      = some ⟨⟨0, ⟨some 1, some .cleanup_dnsblc⟩,
          [.lookup 0 (cstr "x.example.rhsbl.example"),
           .send_result (.valid ⟨.J_UNDEFINED, 0, none, false⟩),
           .request_unlink (.valid sampleRequest)]⟩,
          [⟨cstr "rhsbl.example", 1, 4⟩, ⟨cstr "off.example", 1, 0⟩], 0⟩ := by
  decide

end Gross
